import Mathlib

/-!
# Verification of the anime-organizer core (parser + transfer engine)

Shallow embedding of the Rust sources `src/parser.rs`, `src/organizer.rs`
and `src/error.rs` of the `anime-organizer` repository, together with
theorems settling the frozen claims about the natural-language
specification.

## Modelling notes

* Strings are modelled at the `List Char` / `String` level, matching the
  fact that the Rust code works on `&str` (guaranteed valid UTF-8).
  `Path::file_name()?.to_str()?` is additionally modelled at the byte
  level (`parseOsPath`) so that the non-UTF-8 failure path of
  `FilenameParser::parse` is expressible.
* The regex character classes are Unicode classes in the `regex` crate;
  they are modelled here at their ASCII cores (`\d` as ASCII digits,
  `\w` as ASCII alphanumerics plus underscore, `\s` as the ASCII
  whitespace characters).  All claims only exercise these cores.
* The pre-compiled pattern `ANIME_FILE_REGEX`
  (`parser.rs` lines 80-84) is hand-compiled into a deterministic
  matcher.  The `regex` crate implements leftmost-first ("Perl-like")
  match and capture semantics; the compilation below follows those
  semantics exactly, and every determinization step is justified in a
  comment at its definition.
* The filesystem and the OS error environment of `organizer.rs` are
  modelled by an explicit state (`FS`) plus a schedule of injected
  operation outcomes (`List (Option Int)`): `none` lets the primitive
  act according to the filesystem semantics, `some c` makes it fail
  with raw OS error code `c`.  Error kinds are derived from raw codes
  exactly as Rust's `std::io` derives `ErrorKind` from `errno` values
  on Unix, which is the platform modelled here.
-/

namespace AnimeOrganizer

/-! ## Character classes of the regex (ASCII cores of the Unicode classes) -/

/-- Regex class `\s` (whitespace), at its ASCII core.  Also used for
Rust `str::trim`, which trims the same whitespace characters. -/
def isWsChar (c : Char) : Bool :=
  c = ' ' || c = '\t' || c = '\n' || c = '\x0b' || c = '\x0c' || c = '\r'

/-- Regex class `\d` (decimal digit), at its ASCII core `0`-`9`. -/
def isDigitChar (c : Char) : Bool :=
  c.isDigit

/-- Regex class `\w` (word character), at its ASCII core. -/
def isWordChar (c : Char) : Bool :=
  c.isAlphanum || c = '_'

/-! ## Rust string primitives used by `FilenameParser::parse` -/

/-- Rust `str::trim`: remove leading and trailing whitespace. -/
def rustTrim (l : List Char) : List Char :=
  ((l.dropWhile isWsChar).reverse.dropWhile isWsChar).reverse

/-- Rust `str::to_lowercase`, at its ASCII core (`char::to_lowercase`
maps `A`-`Z` to `a`-`z` and leaves the other characters of the claims
unchanged). -/
def lowerStr (l : List Char) : List Char :=
  l.map Char.toLower

/-- Rust `format!("{:0>2}", s)` (`parser.rs` line 122): left-pad with
`'0'` to width at least 2; width is counted in characters. -/
def pad2 (l : List Char) : List Char :=
  if 2 ≤ l.length then l else List.replicate (2 - l.length) '0' ++ l

/-! ## Hand-compiled `ANIME_FILE_REGEX`

The pattern (`parser.rs` lines 80-84) is

`^\[(?P<publisher>[^\]]+)\]\s+(?P<anime>.+?)\s+-\s+(?P<episode>\d+)\s+(?P<tags>\[.+\])(?P<ext>\.\w+)$`

`Regex::captures` returns the leftmost-first match; since the pattern is
anchored with `^` and `$`, the whole base name must match.  The
compilation below is deterministic wherever backtracking cannot change
the outcome, and performs the genuine leftmost-first search where it
can (the interaction of the greedy `\s+` after `\]` with the lazy
`.+?`). -/

/-- The capture groups of `ANIME_FILE_REGEX`. -/
structure RegexCaps where
  publisher : List Char
  anime : List Char
  episode : List Char
  tags : List Char
  ext : List Char
  deriving DecidableEq, Repr

/-- Match `\s+` at the start of `l` and return the rest.  `\s+` is
greedy; because in the compiled pattern every `\s+` is followed by a
non-whitespace requirement (`-`, `\d`, `\[`), backtracking to a
shorter whitespace run would place a whitespace character where a
non-whitespace one is required, so taking the maximal run is the only
possibility and the match is deterministic. -/
def chompWs (l : List Char) : Option (List Char) :=
  match l with
  | [] => none
  | c :: rest => if isWsChar c then some (rest.dropWhile isWsChar) else none

/-- Match `(?P<tags>\[.+\])(?P<ext>\.\w+)$` on `l`, where `l` is the
text after the opening `[` of the tags block; returns the inner text
of the tags (without the surrounding brackets) and the extension
(with its dot).  `.+` is greedy, but the match is unique: `\w+$` must
be a non-empty all-word-character suffix of the input, and since `.`
and `]` are not word characters, the only candidate is the maximal
word-character suffix, preceded by `.` preceded by `]`.  `.` in the
regex does not match `\n`, hence the newline check on the inner text. -/
def matchTagsExt (l : List Char) : Option (List Char × List Char) :=
  let rev := l.reverse
  let erev := rev.takeWhile isWordChar
  if erev.isEmpty then none
  else
    match rev.dropWhile isWordChar with
    | '.' :: ']' :: innerRev =>
      if innerRev.isEmpty then none
      else if innerRev.any (· = '\n') then none
      else some (innerRev.reverse, '.' :: erev.reverse)
    | _ => none

/-- Match `\s+(?P<episode>\d+)\s+(?P<tags>\[.+\])(?P<ext>\.\w+)$`
anchored at the start of `l`; returns `(episode, tags, ext)`.  Each
`\s+`/`\d+` run is forced maximal (see `chompWs`; likewise `\d+` is
followed by `\s`, and a digit is not whitespace). -/
def matchEpisodeTagsExt (l : List Char) : Option (List Char × List Char × List Char) :=
  match chompWs l with
  | none => none
  | some r3 =>
    let ep := r3.takeWhile isDigitChar
    if ep.isEmpty then none
    else
      match chompWs (r3.dropWhile isDigitChar) with
      | none => none
      | some r4 =>
        match r4 with
        | '[' :: r5 =>
          (matchTagsExt r5).map (fun pr => (ep, '[' :: (pr.1 ++ [']']), pr.2))
        | _ => none

/-- Match `\s+-\s+(?P<episode>\d+)\s+(?P<tags>\[.+\])(?P<ext>\.\w+)$`
anchored at the start of `l`: a whitespace run, the literal `-`, then
the episode/tags/extension tail. -/
def matchSepTail (l : List Char) : Option (List Char × List Char × List Char) :=
  match chompWs l with
  | none => none
  | some r1 =>
    match r1 with
    | '-' :: r2 => matchEpisodeTagsExt r2
    | _ => none

/-- Search for the lazy `(?P<anime>.+?)` followed by the deterministic
tail: `.+?` prefers the shortest capture, so anime candidates are
tried in increasing length; `.` does not match `\n`, so the search
stops at a newline.  `acc` is the anime text consumed so far. -/
def animeSearch (acc : List Char) : List Char → Option (List Char × List Char × List Char × List Char)
  | [] => none
  | c :: rest =>
    if c = '\n' then none
    else
      match matchSepTail rest with
      | some (ep, tg, ex) => some (acc ++ [c], ep, tg, ex)
      | none => animeSearch (acc ++ [c]) rest

/-- Search over the greedy `\s+` after `\]`: whitespace-run lengths
are tried from the maximal run `w` down to 1 (greedy preference), and
for each, the lazy anime search runs on the remainder.  Leftmost-first
semantics: the greedy outer choice is committed first, the lazy inner
choice backtracks first. -/
def wsSearch (r : List Char) : Nat → Option (List Char × List Char × List Char × List Char)
  | 0 => none
  | w + 1 =>
    match animeSearch [] (r.drop (w + 1)) with
    | some res => some res
    | none => wsSearch r w

/-- `ANIME_FILE_REGEX.captures` (`parser.rs` line 117) on the base
name.  `^\[` forces the first character; `[^\]]+` is forced to the
run of non-`]` characters before the first `]` (shrinking it would
require `\]` to match a non-`]` character). -/
def animeFileRegexCaptures (l : List Char) : Option RegexCaps :=
  match l with
  | '[' :: rest =>
    let pub := rest.takeWhile (fun c => !(c = ']'))
    if pub.isEmpty then none
    else
      match rest.dropWhile (fun c => !(c = ']')) with
      | ']' :: r1 =>
        match wsSearch r1 (r1.takeWhile isWsChar).length with
        | some (an, ep, tg, ex) =>
          some { publisher := pub, anime := an, episode := ep, tags := tg, ext := ex }
        | none => none
      | _ => none
  | _ => none

/-! ## `AnimeFileInfo` and `FilenameParser` (`parser.rs`) -/

/-- `AnimeFileInfo` (`parser.rs` lines 33-46). -/
structure AnimeFileInfo where
  publisher : String
  anime_name : String
  episode : String
  tags : String
  extension : String
  original_path : String
  deriving DecidableEq, Repr

/-- `AnimeFileInfo::target_filename` (`parser.rs` lines 69-71):
`format!("{} {}{}", episode, tags, extension)`. -/
def AnimeFileInfo.target_filename (info : AnimeFileInfo) : String :=
  info.episode ++ " " ++ info.tags ++ info.extension

/-- Split a character list on `/` (the Unix path separator). -/
def splitSlash (l : List Char) : List (List Char) :=
  l.foldr
    (fun c acc =>
      if c = '/' then [] :: acc
      else
        match acc with
        | h :: t => (c :: h) :: t
        | [] => [[c]])
    [[]]

/-- Rust `Path::file_name` for Unix paths: the last path component
that is neither empty nor `.`; `None` when there is no such component
or when it is `..`. -/
def fileNameOfChars (l : List Char) : Option (List Char) :=
  let comps := (splitSlash l).filter (fun c => !(c = [] || c = ['.']))
  match comps.getLast? with
  | none => none
  | some last => if last = ['.', '.'] then none else some last

/-- The body of `FilenameParser::parse` after the base name has been
obtained and decoded (`parser.rs` lines 117-133): run the regex and
assemble the record.  `pathStr` is `path.to_string_lossy()`. -/
def parseFilenameCore (filename : List Char) (pathStr : String) : Option AnimeFileInfo :=
  match animeFileRegexCaptures filename with
  | none => none
  | some c =>
    some
      { publisher := String.mk (rustTrim c.publisher)
        anime_name := String.mk (rustTrim c.anime)
        episode := String.mk (pad2 c.episode)
        tags := String.mk (rustTrim c.tags)
        extension := String.mk (lowerStr c.ext)
        original_path := pathStr }

/-- `FilenameParser::parse` (`parser.rs` lines 113-134) on a valid
UTF-8 path: `path.file_name()?` then the regex; `to_str()?` always
succeeds on valid UTF-8 (the byte-level model `parseOsPath` below
covers the non-UTF-8 case), and `to_string_lossy` is the identity. -/
def FilenameParser.parse (path : String) : Option AnimeFileInfo :=
  match fileNameOfChars path.data with
  | none => none
  | some name => parseFilenameCore name path

/-! ## Byte-level model of the `OsStr` boundary of `parse`

`parse` receives a `Path`, whose underlying `OsStr` need not be valid
UTF-8 on Unix.  `path.file_name()?` works on bytes; `to_str()?` then
requires the base name to be valid UTF-8.  The byte-level model below
(`parseOsPath`) makes that boundary expressible; paths are byte lists
and `/` is byte 47. -/

/-- Split a byte list on `/` (byte 47). -/
def splitSlashBytes (l : List Nat) : List (List Nat) :=
  l.foldr
    (fun b acc =>
      if b = 47 then [] :: acc
      else
        match acc with
        | h :: t => (b :: h) :: t
        | [] => [[b]])
    [[]]

/-- Rust `Path::file_name` on raw Unix path bytes: the last component
that is neither empty nor `.` (byte 46); `None` when there is no such
component or when it is `..`. -/
def fileNameBytes (l : List Nat) : Option (List Nat) :=
  let comps := (splitSlashBytes l).filter (fun c => !(c = [] || c = [46]))
  match comps.getLast? with
  | none => none
  | some last => if last = [46, 46] then none else some last

/-- Is `b` a UTF-8 continuation byte (`10xxxxxx`)? -/
def isUtf8Cont (b : Nat) : Bool :=
  128 ≤ b && b ≤ 191

/-- Strict UTF-8 decoding, `none` on any ill-formed input (overlong
encodings, surrogates, out-of-range code points, truncated sequences):
the model of `OsStr::to_str` returning `None`. -/
def utf8Decode : List Nat → Option (List Char)
  | [] => some []
  | b :: bs =>
    if b ≤ 127 then (utf8Decode bs).map (fun cs => Char.ofNat b :: cs)
    else if 194 ≤ b && b ≤ 223 then
      match bs with
      | b2 :: bs2 =>
        if isUtf8Cont b2 then
          (utf8Decode bs2).map (fun cs => Char.ofNat ((b - 192) * 64 + (b2 - 128)) :: cs)
        else none
      | [] => none
    else if 224 ≤ b && b ≤ 239 then
      match bs with
      | b2 :: b3 :: bs2 =>
        let lo2 : Nat := if b = 224 then 160 else 128
        let hi2 : Nat := if b = 237 then 159 else 191
        if (lo2 ≤ b2 && b2 ≤ hi2) && isUtf8Cont b3 then
          (utf8Decode bs2).map
            (fun cs => Char.ofNat ((b - 224) * 4096 + (b2 - 128) * 64 + (b3 - 128)) :: cs)
        else none
      | _ => none
    else if 240 ≤ b && b ≤ 244 then
      match bs with
      | b2 :: b3 :: b4 :: bs2 =>
        let lo2 : Nat := if b = 240 then 144 else 128
        let hi2 : Nat := if b = 244 then 143 else 191
        if (lo2 ≤ b2 && b2 ≤ hi2) && (isUtf8Cont b3 && isUtf8Cont b4) then
          (utf8Decode bs2).map
            (fun cs =>
              Char.ofNat ((b - 240) * 262144 + (b2 - 128) * 4096 + (b3 - 128) * 64 + (b4 - 128)) :: cs)
        else none
      | _ => none
    else none

/-- Lossy UTF-8 decoding for `to_string_lossy`: ill-formed bytes are
replaced by U+FFFD (approximation: one replacement per rejected byte).
The fuel argument, initially the list length, only bounds the
recursion; each step consumes at least one byte, so the fuel never
runs out. -/
def utf8DecodeLossyGo : Nat → List Nat → List Char
  | 0, _ => []
  | _, [] => []
  | fuel + 1, b :: bs =>
    if b ≤ 127 then Char.ofNat b :: utf8DecodeLossyGo fuel bs
    else if 194 ≤ b && b ≤ 223 then
      match bs with
      | b2 :: bs2 =>
        if isUtf8Cont b2 then
          Char.ofNat ((b - 192) * 64 + (b2 - 128)) :: utf8DecodeLossyGo fuel bs2
        else '�' :: utf8DecodeLossyGo fuel (b2 :: bs2)
      | [] => ['�']
    else if 224 ≤ b && b ≤ 239 then
      match bs with
      | b2 :: b3 :: bs2 =>
        let lo2 : Nat := if b = 224 then 160 else 128
        let hi2 : Nat := if b = 237 then 159 else 191
        if (lo2 ≤ b2 && b2 ≤ hi2) && isUtf8Cont b3 then
          Char.ofNat ((b - 224) * 4096 + (b2 - 128) * 64 + (b3 - 128))
            :: utf8DecodeLossyGo fuel bs2
        else '�' :: utf8DecodeLossyGo fuel (b2 :: b3 :: bs2)
      | _ => ['�']
    else if 240 ≤ b && b ≤ 244 then
      match bs with
      | b2 :: b3 :: b4 :: bs2 =>
        let lo2 : Nat := if b = 240 then 144 else 128
        let hi2 : Nat := if b = 244 then 143 else 191
        if (lo2 ≤ b2 && b2 ≤ hi2) && (isUtf8Cont b3 && isUtf8Cont b4) then
          Char.ofNat ((b - 240) * 262144 + (b2 - 128) * 4096 + (b3 - 128) * 64 + (b4 - 128))
            :: utf8DecodeLossyGo fuel bs2
        else '�' :: utf8DecodeLossyGo fuel (b2 :: b3 :: b4 :: bs2)
      | _ => ['�']
    else '�' :: utf8DecodeLossyGo fuel bs

/-- Lossy UTF-8 decoding of a whole byte list. -/
def utf8DecodeLossy (l : List Nat) : List Char :=
  utf8DecodeLossyGo l.length l

/-- `FilenameParser::parse` at the byte level (`parser.rs` lines
113-117): `let filename = path.file_name()?.to_str()?;` followed by
the regex on the decoded base name, with `to_string_lossy` for
`original_path`. -/
def parseOsPath (pathBytes : List Nat) : Option AnimeFileInfo :=
  match fileNameBytes pathBytes with
  | none => none
  | some nameBytes =>
    match utf8Decode nameBytes with
    | none => none
    | some name => parseFilenameCore name (String.mk (utf8DecodeLossy pathBytes))

/-! ## Error taxonomy (`error.rs`) and the OS error environment

`AppError` mirrors `error.rs` lines 11-45.  I/O errors produced by the
filesystem primitives are raw Unix `errno` codes; `std::io::Error`
values coming from failed syscalls always carry such a raw code
(`raw_os_error()` is `Some`), and their `ErrorKind` is derived from it
exactly as Rust's standard library does on Unix. -/

/-- `AppError` (`error.rs`).  `Io` wraps the underlying OS error,
modelled by its raw `errno` code. -/
inductive AppError where
  | Io (code : Int)
  | ParseError (msg : String)
  | SourceNotFound (path : String)
  | TargetNotFound (path : String)
  | CrossDeviceLink
  | HardLinkNotSupported
  | FileOperation (path : String) (message : String)
  deriving DecidableEq, Repr

/-- The `std::io::ErrorKind` values relevant to the engine. -/
inductive IoErrorKind where
  | notFound
  | permissionDenied
  | alreadyExists
  | crossesDevices
  | uncategorized
  deriving DecidableEq, Repr

/-- Rust's Unix decoding of `errno` into `ErrorKind`, restricted to
the codes the engine distinguishes: `EPERM` (1) and `EACCES` (13) map
to `PermissionDenied`, `ENOENT` (2) to `NotFound`, `EEXIST` (17) to
`AlreadyExists`, `EXDEV` (18) to `CrossesDevices`. -/
def errorKindOf (code : Int) : IoErrorKind :=
  if code = 2 then .notFound
  else if code = 1 || code = 13 then .permissionDenied
  else if code = 17 then .alreadyExists
  else if code = 18 then .crossesDevices
  else .uncategorized

/-- The raw `errno` for a cross-device link on the modelled platform
(Unix): `EXDEV` = 18. -/
def unixCrossDeviceCode : Int := 18

/-! ## Filesystem model

Paths are the strings the engine manipulates; file contents are byte
lists.  Directories are tracked as a set of paths (the ancestor chain
created by `create_dir_all` is abstracted to the directory the engine
asks for; no claim depends on the intermediate ancestors). -/

/-- Filesystem state: contents of regular files, and which directories
exist. -/
structure FS where
  files : String → Option (List Nat)
  dirs : String → Bool

/-- `Path::join` for a relative, separator-free right operand (file
names produced by the parser contain no `/`). -/
def pathJoin (a b : String) : String :=
  a ++ "/" ++ b

/-- `Path::exists`: true when any filesystem object lives at `p`. -/
def FS.pathExists (fs : FS) (p : String) : Bool :=
  (fs.files p).isSome || fs.dirs p

/-- Write (create or replace) the file at `p`. -/
def FS.setFile (fs : FS) (p : String) (c : List Nat) : FS :=
  { fs with files := fun q => if q = p then some c else fs.files q }

/-- Remove the file at `p`. -/
def FS.delFile (fs : FS) (p : String) : FS :=
  { fs with files := fun q => if q = p then none else fs.files q }

/-- `fs::create_dir_all` semantics: ensure the directory exists
(idempotent). -/
def fsCreateDirAll (fs : FS) (d : String) : FS :=
  { fs with dirs := fun q => if q = d then true else fs.dirs q }

/-- `fs::remove_file` semantics: fails with `ENOENT` (2) when no file
is at `p`. -/
def ioRemoveFile (fs : FS) (p : String) : Except Int FS :=
  match fs.files p with
  | none => .error 2
  | some _ => .ok (fs.delFile p)

/-- `fs::rename` semantics: moves the file, replacing any file at the
target; fails with `ENOENT` (2) when the source is missing. -/
def ioRename (fs : FS) (s t : String) : Except Int FS :=
  match fs.files s with
  | none => .error 2
  | some c => .ok ((fs.delFile s).setFile t c)

/-- `fs::copy` semantics: copies the contents, leaving the source
untouched; fails with `ENOENT` (2) when the source is missing. -/
def ioCopy (fs : FS) (s t : String) : Except Int FS :=
  match fs.files s with
  | none => .error 2
  | some c => .ok (fs.setFile t c)

/-- `fs::hard_link` semantics: fails with `ENOENT` (2) when the source
is missing and with `EEXIST` (17) when the target already exists;
otherwise the target names the same data as the source (modelled by
content equality). -/
def ioHardLink (fs : FS) (s t : String) : Except Int FS :=
  match fs.files s with
  | none => .error 2
  | some c => if (fs.files t).isSome then .error 17 else .ok (fs.setFile t c)

/-- Run a filesystem primitive under the injected-outcome schedule:
the head entry `some c` makes the call fail with raw OS error `c`
without touching the state; `none` (or an exhausted schedule) lets the
primitive act. -/
def runFsOp (op : FS → Except Int FS) (fs : FS) (sched : List (Option Int)) :
    Except Int FS × List (Option Int) :=
  match sched with
  | some e :: rest => (.error e, rest)
  | none :: rest => (op fs, rest)
  | [] => (op fs, [])

/-! ## `FileOrganizer` (`organizer.rs`) -/

/-- `OperationMode` (`organizer.rs` lines 36-47). -/
inductive OperationMode where
  | Move
  | Copy
  | Link
  deriving DecidableEq, Repr

/-- The target directory computed by `organize` (`organizer.rs` line
110): `target_root.join(&anime_file.anime_name)`. -/
def targetDirOf (info : AnimeFileInfo) (target_root : String) : String :=
  pathJoin target_root info.anime_name

/-- The target path computed by `organize` (`organizer.rs` line 112):
`target_dir.join(&target_filename)`. -/
def targetPathOf (info : AnimeFileInfo) (target_root : String) : String :=
  pathJoin (targetDirOf info target_root) info.target_filename

/-- `FileOrganizer::create_hard_link` (`organizer.rs` lines 165-185):
attempt the link, then classify a failure by raw OS error code 17 or
18 first, then by `ErrorKind::PermissionDenied`, else wrap in
`AppError::Io`. -/
def FileOrganizer.create_hard_link (source target : String) (fs : FS)
    (sched : List (Option Int)) : Except AppError FS × List (Option Int) :=
  match runFsOp (fun f => ioHardLink f source target) fs sched with
  | (.ok fs2, s2) => (.ok fs2, s2)
  | (.error e, s2) =>
    (if e = 17 || e = 18 then .error .CrossDeviceLink
     else if errorKindOf e = .permissionDenied then .error .HardLinkNotSupported
     else .error (.Io e), s2)

/-- `FileOrganizer::organize` (`organizer.rs` lines 104-150).  Returns
the result, the final filesystem state, and the lines printed to
standard output.  The `?` operator converts `std::io::Error` into
`AppError::Io`; a failed `fs::rename` in Move mode is swallowed
(`is_err()`) and triggers the copy-then-delete fallback. -/
def FileOrganizer.organize (anime_file : AnimeFileInfo) (target_root : String)
    (mode : OperationMode) (dry_run : Bool) (fs : FS) (sched : List (Option Int)) :
    Except AppError Unit × FS × List String :=
  let target_dir := targetDirOf anime_file target_root
  let target_path := targetPathOf anime_file target_root
  let source_path := anime_file.original_path
  if dry_run then
    (.ok (), fs, ["[DRY-RUN] " ++ anime_file.original_path ++ " -> " ++ target_path])
  else
    match runFsOp (fun f => .ok (fsCreateDirAll f target_dir)) fs sched with
    | (.error e, _) => (.error (.Io e), fs, [])
    | (.ok fs1, s1) =>
      match
        (if fs1.pathExists target_path then runFsOp (fun f => ioRemoveFile f target_path) fs1 s1
         else (.ok fs1, s1)) with
      | (.error e, _) => (.error (.Io e), fs1, [])
      | (.ok fs2, s2) =>
        match mode with
        | .Move =>
          match runFsOp (fun f => ioRename f source_path target_path) fs2 s2 with
          | (.ok fs3, _) => (.ok (), fs3, [])
          | (.error _, s3) =>
            match runFsOp (fun f => ioCopy f source_path target_path) fs2 s3 with
            | (.error e, _) => (.error (.Io e), fs2, [])
            | (.ok fs3, s4) =>
              match runFsOp (fun f => ioRemoveFile f source_path) fs3 s4 with
              | (.error e, _) => (.error (.Io e), fs3, [])
              | (.ok fs4, _) => (.ok (), fs4, [])
        | .Copy =>
          match runFsOp (fun f => ioCopy f source_path target_path) fs2 s2 with
          | (.error e, _) => (.error (.Io e), fs2, [])
          | (.ok fs3, _) => (.ok (), fs3, [])
        | .Link =>
          match FileOrganizer.create_hard_link source_path target_path fs2 s2 with
          | (.error err, _) => (.error err, fs2, [])
          | (.ok fs3, _) => (.ok (), fs3, [])

/-! ## Transfer-engine lemmas -/

/-! ## Sample data for witnesses -/

/-- A sample parsed record. -/
def sampleInfo : AnimeFileInfo :=
  { publisher := "ANi", anime_name := "Show", episode := "01", tags := "[1080P]",
    extension := ".mp4", original_path := "/dl/src.mp4" }

/-- A sample filesystem holding only the source file. -/
def sampleFS : FS :=
  { files := fun p => if p = "/dl/src.mp4" then some [1, 2, 3] else none,
    dirs := fun _ => false }

/-- A sample filesystem holding the source file and an old file at the
computed destination. -/
def sampleFSWithTarget : FS :=
  { files := fun p =>
      if p = "/dl/src.mp4" then some [1, 2, 3]
      else if p = "/anime/Show/01 [1080P].mp4" then some [9, 9] else none,
    dirs := fun _ => false }

/-- Ends in a character that is not whitespace. -/
def EndsNonWs (u : List Char) : Prop :=
  ∀ c, u.getLast? = some c → isWsChar c = false

/-- The record produced by the parser on the sample name. -/
def sampleParsedB : AnimeFileInfo :=
  { publisher := "A", anime_name := "B", episode := "01", tags := "[C]",
    extension := ".mp4", original_path := "[A] B - 1 [C].mp4" }

/-- The record produced by the parser on the two-digit sample name. -/
def sampleParsedB12 : AnimeFileInfo :=
  { publisher := "A", anime_name := "B", episode := "12", tags := "[C]",
    extension := ".mp4", original_path := "[A] B - 12 [C].mp4" }


theorem targetPathOf_ne_targetDirOf (info : AnimeFileInfo) (root : String) :
    targetPathOf info root ≠ targetDirOf info root := by
  intro h
  have h2 := congrArg String.length h
  have h1 : ("/" : String).length = 1 := rfl
  simp only [targetPathOf, pathJoin, String.length_append, h1] at h2
  omega

theorem runFsOp_ok_elim {op : FS → Except Int FS} {fs : FS} {sched : List (Option Int)}
    {fs2 : FS} {s2 : List (Option Int)} (h : runFsOp op fs sched = (.ok fs2, s2)) :
    op fs = .ok fs2 := by
  unfold runFsOp at h
  rcases sched with _ | ⟨o, rest⟩
  · injection h with h1 h2
  · rcases o with _ | e
    · injection h with h1 h2
    · injection h with h1 h2
      cases h1

theorem ioRemoveFile_ok {fs : FS} {p : String} {fs2 : FS} (h : ioRemoveFile fs p = .ok fs2) :
    fs2 = fs.delFile p ∧ (fs.files p).isSome := by
  unfold ioRemoveFile at h
  rcases hv : fs.files p with _ | c
  · rw [hv] at h; cases h
  · rw [hv] at h; injection h with h1; exact ⟨h1.symm, by simp [hv]⟩

theorem ioRename_ok {fs : FS} {s t : String} {fs2 : FS} (h : ioRename fs s t = .ok fs2) :
    ∃ c, fs.files s = some c ∧ fs2 = (fs.delFile s).setFile t c := by
  unfold ioRename at h
  rcases hv : fs.files s with _ | c
  · rw [hv] at h; cases h
  · rw [hv] at h; injection h with h1; exact ⟨c, rfl, h1.symm⟩

theorem ioCopy_ok {fs : FS} {s t : String} {fs2 : FS} (h : ioCopy fs s t = .ok fs2) :
    ∃ c, fs.files s = some c ∧ fs2 = fs.setFile t c := by
  unfold ioCopy at h
  rcases hv : fs.files s with _ | c
  · rw [hv] at h; cases h
  · rw [hv] at h; injection h with h1; exact ⟨c, rfl, h1.symm⟩

theorem ioHardLink_ok {fs : FS} {s t : String} {fs2 : FS} (h : ioHardLink fs s t = .ok fs2) :
    ∃ c, fs.files s = some c ∧ fs.files t = none ∧ fs2 = fs.setFile t c := by
  unfold ioHardLink at h
  rcases hv : fs.files s with _ | c
  · rw [hv] at h; cases h
  · rw [hv] at h
    rcases ht : fs.files t with _ | d
    · rw [ht] at h; simp only [Option.isSome_none, Bool.false_eq_true, if_false] at h
      injection h with h1; exact ⟨c, rfl, rfl, h1.symm⟩
    · rw [ht] at h; simp only [Option.isSome_some, if_true] at h; cases h

theorem create_hard_link_ok_elim {s t : String} {fs : FS} {sched : List (Option Int)}
    {fs2 : FS} {s2 : List (Option Int)}
    (h : FileOrganizer.create_hard_link s t fs sched = (.ok fs2, s2)) :
    ioHardLink fs s t = .ok fs2 := by
  unfold FileOrganizer.create_hard_link at h
  rcases hr : runFsOp (fun f => ioHardLink f s t) fs sched with ⟨res, s3⟩
  rw [hr] at h
  rcases res with e | fs3
  · injection h with h1 h2
    split at h1
    · cases h1
    · split at h1
      · cases h1
      · cases h1
  · injection h with h1 h2
    injection h1 with h1
    have := runFsOp_ok_elim hr
    simpa using h1 ▸ this

theorem organize_ok_files (info : AnimeFileInfo) (root : String) (mode : OperationMode)
    (fs : FS) (sched : List (Option Int)) (fsf : FS) (out : List String)
    (hR : FileOrganizer.organize info root mode false fs sched = (.ok (), fsf, out)) :
    ∃ c, fs.files info.original_path = some c ∧
      fsf.files (targetPathOf info root) = some c ∧
      (mode = .Move → fsf.files info.original_path = none) ∧
      ((mode = .Copy ∨ mode = .Link) → fsf.files info.original_path = some c) := by
  unfold FileOrganizer.organize at hR
  simp only at hR
  split at hR
  · exact absurd (by assumption : false = true) (by decide)
  split at hR
  · simp at hR
  rename_i fs1 s1 heq1
  split at hR
  · simp at hR
  rename_i fs2 s2 heq2
  have hfs1 : fs1 = fsCreateDirAll fs (targetDirOf info root) := by
    have h := runFsOp_ok_elim heq1
    injection h with h
    exact h.symm
  have h2 : fs2.files (targetPathOf info root) = none ∧
      ∀ q, q ≠ targetPathOf info root → fs2.files q = fs.files q := by
    split at heq2
    · have h := ioRemoveFile_ok (runFsOp_ok_elim heq2)
      obtain ⟨hfs2, -⟩ := h
      subst hfs2
      refine ⟨by simp [FS.delFile], fun q hq => ?_⟩
      simp only [FS.delFile, hfs1]
      rw [if_neg hq]
      rfl
    · rename_i hEx
      injection heq2 with hA hB
      injection hA with hA
      subst hA
      refine ⟨?_, fun q _ => by rw [hfs1]; rfl⟩
      simp only [FS.pathExists, Bool.or_eq_true, not_or] at hEx
      rcases hv : fs1.files (targetPathOf info root) with _ | c
      · rfl
      · exact absurd (by rw [hv]; rfl) hEx.1
  obtain ⟨htp2, hother2⟩ := h2
  split at hR
  case _ =>
    -- Move
    split at hR
    · rename_i fs3 s3 heq3
      obtain ⟨c, hc, hfs3⟩ := ioRename_ok (runFsOp_ok_elim heq3)
      injection hR with hA hB
      injection hB with hB hC
      subst hB
      have hne : info.original_path ≠ targetPathOf info root := by
        intro he
        rw [he, htp2] at hc
        cases hc
      refine ⟨c, ?_, ?_, fun _ => ?_, by simp⟩
      · rw [← hother2 _ hne]; exact hc
      · rw [hfs3]; simp [FS.setFile]
      · rw [hfs3]
        simp only [FS.setFile, FS.delFile]
        rw [if_neg hne]
        simp
    · rename_i e s3 heq3
      split at hR
      · simp at hR
      rename_i fs3 s4 heq4
      split at hR
      · simp at hR
      rename_i fs4 s5 heq5
      obtain ⟨c, hc, hfs3⟩ := ioCopy_ok (runFsOp_ok_elim heq4)
      obtain ⟨hfs4, hsome⟩ := ioRemoveFile_ok (runFsOp_ok_elim heq5)
      injection hR with hA hB
      injection hB with hB hC
      subst hB
      have hne : info.original_path ≠ targetPathOf info root := by
        intro he
        rw [he, htp2] at hc
        cases hc
      refine ⟨c, ?_, ?_, fun _ => ?_, by simp⟩
      · rw [← hother2 _ hne]; exact hc
      · rw [hfs4, hfs3]
        simp only [FS.delFile, FS.setFile]
        rw [if_neg (Ne.symm hne)]
        simp
      · rw [hfs4]
        simp [FS.delFile]
  case _ =>
    -- Copy
    split at hR
    · simp at hR
    rename_i fs3 s3 heq3
    obtain ⟨c, hc, hfs3⟩ := ioCopy_ok (runFsOp_ok_elim heq3)
    injection hR with hA hB
    injection hB with hB hC
    subst hB
    have hne : info.original_path ≠ targetPathOf info root := by
      intro he
      rw [he, htp2] at hc
      cases hc
    refine ⟨c, ?_, ?_, by simp, fun _ => ?_⟩
    · rw [← hother2 _ hne]; exact hc
    · rw [hfs3]; simp [FS.setFile]
    · rw [hfs3]
      simp only [FS.setFile]
      rw [if_neg hne]
      exact hc
  case _ =>
    -- Link
    split at hR
    · simp at hR
    rename_i fs3 s3 heq3
    obtain ⟨c, hc, -, hfs3⟩ := ioHardLink_ok (create_hard_link_ok_elim heq3)
    injection hR with hA hB
    injection hB with hB hC
    subst hB
    have hne : info.original_path ≠ targetPathOf info root := by
      intro he
      rw [he, htp2] at hc
      cases hc
    refine ⟨c, ?_, ?_, by simp, fun _ => ?_⟩
    · rw [← hother2 _ hne]; exact hc
    · rw [hfs3]; simp [FS.setFile]
    · rw [hfs3]
      simp only [FS.setFile]
      rw [if_neg hne]
      exact hc

/-- Collision removal: with the target initially present as a file and the
schedule letting `create_dir_all` and `remove_file` act, the pre-transfer
steps leave the filesystem with the old target file deleted. -/
theorem organize_removes_collision (info : AnimeFileInfo) (root : String)
    (mode : OperationMode) (fs : FS) (e e2 : Int) (rest : List (Option Int)) (c0 : List Nat)
    (hold : fs.files (targetPathOf info root) = some c0) :
    (FileOrganizer.organize info root mode false fs
        (none :: none :: some e :: some e2 :: rest)).2.1.files
      (targetPathOf info root) = none := by
  have h1 : (fsCreateDirAll fs (targetDirOf info root)).pathExists (targetPathOf info root) = true := by
    simp only [FS.pathExists, Bool.or_eq_true]
    left
    show (fs.files (targetPathOf info root)).isSome = true
    rw [hold]
    rfl
  unfold FileOrganizer.organize runFsOp
  simp only [Bool.false_eq_true, if_false, h1, if_true]
  unfold ioRemoveFile
  rw [show (fsCreateDirAll fs (targetDirOf info root)).files (targetPathOf info root)
        = some c0 from hold]
  rcases mode with _ | _ | _
  · simp [FS.delFile, fsCreateDirAll]
  · simp [FS.delFile, fsCreateDirAll]
  · unfold FileOrganizer.create_hard_link runFsOp
    simp only
    split
    · simp [FS.delFile, fsCreateDirAll]
    · rename_i heq
      exfalso
      injection heq with hA hB
      split at hA
      · cases hA
      · split at hA
        · cases hA
        · cases hA

/-! ## Claim theorems: transfer engine -/

/-- C4: with `dryRun = true`, `organize` returns success immediately,
reports the intended source-to-destination mapping, and performs no
filesystem mutation of any kind: the returned state is the input state,
so no directory is created and no file is removed, moved, copied or
linked. -/
theorem organize_dry_run_pure (info : AnimeFileInfo) (root : String)
    (mode : OperationMode) (fs : FS) (sched : List (Option Int)) :
    FileOrganizer.organize info root mode true fs sched =
      (.ok (), fs, ["[DRY-RUN] " ++ info.original_path ++ " -> " ++ targetPathOf info root]) :=
  rfl

/-- C7: `target_filename` is exactly `episodeNumber ++ " " ++ tags ++
extension` (single space, no other delimiters; in particular
`"01" / "[1080P]" / ".mp4"` give `"01 [1080P].mp4"`), and `organize`
computes the destination as `destinationRoot / title / targetFileName`,
as its dry-run report shows. -/
theorem target_filename_destination :
    (∀ info : AnimeFileInfo,
        info.target_filename = info.episode ++ " " ++ info.tags ++ info.extension) ∧
    (∀ (info : AnimeFileInfo) (root : String),
        targetPathOf info root = pathJoin (pathJoin root info.anime_name) info.target_filename) ∧
    (∀ (info : AnimeFileInfo) (root : String) (mode : OperationMode) (fs : FS)
        (sched : List (Option Int)),
        (FileOrganizer.organize info root mode true fs sched).2.2 =
          ["[DRY-RUN] " ++ info.original_path ++ " -> "
            ++ pathJoin (pathJoin root info.anime_name)
                (info.episode ++ " " ++ info.tags ++ info.extension)]) ∧
    ({ publisher := "ANi", anime_name := "测试", episode := "01", tags := "[1080P]",
       extension := ".mp4", original_path := "/path/to/file" } : AnimeFileInfo).target_filename
      = "01 [1080P].mp4" :=
  ⟨fun _ => rfl, fun _ _ => rfl, fun _ _ _ _ _ => rfl, rfl⟩

/-- C2: in Move mode, when the rename fails, the engine copies and then
deletes the source; an execution where the copy succeeds and the
deletion fails returns exactly that deletion error, with the
destination written and the source left in place (first conjunct); and
any successful Move leaves the original bytes at the destination and
no file at the source path (second conjunct). -/
theorem organize_move_fallback_semantics :
    (∀ (info : AnimeFileInfo) (root : String) (fs : FS) (c : List Nat) (e1 e2 : Int)
        (rest : List (Option Int)),
      fs.files info.original_path = some c →
      fs.pathExists (targetPathOf info root) = false →
      FileOrganizer.organize info root .Move false fs
          (none :: some e1 :: none :: some e2 :: rest) =
        (.error (.Io e2),
         (fsCreateDirAll fs (targetDirOf info root)).setFile (targetPathOf info root) c,
         []) ∧
      ((fsCreateDirAll fs (targetDirOf info root)).setFile (targetPathOf info root) c).files
          (targetPathOf info root) = some c ∧
      ((fsCreateDirAll fs (targetDirOf info root)).setFile (targetPathOf info root) c).files
          info.original_path = some c) ∧
    (∀ (info : AnimeFileInfo) (root : String) (fs : FS) (sched : List (Option Int))
        (fsf : FS) (out : List String),
      FileOrganizer.organize info root .Move false fs sched = (.ok (), fsf, out) →
      ∃ c, fs.files info.original_path = some c ∧
        fsf.files (targetPathOf info root) = some c ∧
        fsf.files info.original_path = none) := by
  constructor
  · intro info root fs c e1 e2 rest hsrc hne
    have h1 : (fsCreateDirAll fs (targetDirOf info root)).pathExists
        (targetPathOf info root) = false := by
      simp only [FS.pathExists, Bool.or_eq_false_iff] at hne ⊢
      refine ⟨hne.1, ?_⟩
      show (if targetPathOf info root = targetDirOf info root then true
            else fs.dirs (targetPathOf info root)) = false
      rw [if_neg (targetPathOf_ne_targetDirOf info root)]
      exact hne.2
    refine ⟨?_, by simp [FS.setFile], ?_⟩
    · unfold FileOrganizer.organize runFsOp
      simp only [Bool.false_eq_true, if_false, h1]
      unfold ioCopy
      rw [show (fsCreateDirAll fs (targetDirOf info root)).files info.original_path
            = some c from hsrc]
    · by_cases h : info.original_path = targetPathOf info root <;>
        simp [FS.setFile, fsCreateDirAll, h, hsrc]
  · intro info root fs sched fsf out hR
    obtain ⟨c, h1, h2, h3, -⟩ := organize_ok_files info root .Move fs sched fsf out hR
    exact ⟨c, h1, h2, h3 rfl⟩

/-- C2 witness: the failure scenario and a successful Move, both at
concrete inputs. -/
theorem organize_move_fallback_semantics_witness :
    (FileOrganizer.organize sampleInfo "/anime" .Move false sampleFS
        (none :: some 18 :: none :: some 13 :: []) =
      (.error (.Io 13),
       (fsCreateDirAll sampleFS (targetDirOf sampleInfo "/anime")).setFile
         (targetPathOf sampleInfo "/anime") [1, 2, 3],
       []) ∧
     ((fsCreateDirAll sampleFS (targetDirOf sampleInfo "/anime")).setFile
         (targetPathOf sampleInfo "/anime") [1, 2, 3]).files
       (targetPathOf sampleInfo "/anime") = some [1, 2, 3] ∧
     ((fsCreateDirAll sampleFS (targetDirOf sampleInfo "/anime")).setFile
         (targetPathOf sampleInfo "/anime") [1, 2, 3]).files
       sampleInfo.original_path = some [1, 2, 3]) ∧
    (∃ c, sampleFS.files sampleInfo.original_path = some c ∧
      (FileOrganizer.organize sampleInfo "/anime" .Move false sampleFS []).2.1.files
        (targetPathOf sampleInfo "/anime") = some c ∧
      (FileOrganizer.organize sampleInfo "/anime" .Move false sampleFS []).2.1.files
        sampleInfo.original_path = none) :=
  ⟨organize_move_fallback_semantics.1 sampleInfo "/anime" sampleFS [1, 2, 3] 18 13 [] rfl rfl,
   organize_move_fallback_semantics.2 sampleInfo "/anime" sampleFS []
     (FileOrganizer.organize sampleInfo "/anime" .Move false sampleFS []).2.1
     (FileOrganizer.organize sampleInfo "/anime" .Move false sampleFS []).2.2 rfl⟩

/-- C8: in every non-dry-run mode, a successful `organize` into a
destination that already held a file ends with the destination holding
the source bytes, not the old content (first conjunct); and the old
file is removed before the mode-specific transfer step runs: even when
every transfer primitive fails, the old destination file is already
gone (second conjunct). -/
theorem organize_overwrite_last_write_wins :
    (∀ (info : AnimeFileInfo) (root : String) (mode : OperationMode) (fs : FS)
        (sched : List (Option Int)) (c0 : List Nat) (fsf : FS) (out : List String),
      fs.files (targetPathOf info root) = some c0 →
      FileOrganizer.organize info root mode false fs sched = (.ok (), fsf, out) →
      ∃ c, fs.files info.original_path = some c ∧
        fsf.files (targetPathOf info root) = some c ∧
        (c0 ≠ c → fsf.files (targetPathOf info root) ≠ some c0)) ∧
    (∀ (info : AnimeFileInfo) (root : String) (mode : OperationMode) (fs : FS)
        (e e2 : Int) (rest : List (Option Int)) (c0 : List Nat),
      fs.files (targetPathOf info root) = some c0 →
      (FileOrganizer.organize info root mode false fs
          (none :: none :: some e :: some e2 :: rest)).2.1.files
        (targetPathOf info root) = none) := by
  constructor
  · intro info root mode fs sched c0 fsf out h0 hR
    obtain ⟨c, h1, h2, -, -⟩ := organize_ok_files info root mode fs sched fsf out hR
    refine ⟨c, h1, h2, fun hne => ?_⟩
    rw [h2]
    intro hx
    injection hx with hx
    exact hne hx.symm
  · intro info root mode fs e e2 rest c0 h0
    exact organize_removes_collision info root mode fs e e2 rest c0 h0

/-- C8 witness: a successful Copy over an existing different-content
destination, and the removed-before-transfer scenario, at concrete
inputs. -/
theorem organize_overwrite_last_write_wins_witness :
    (∃ c, sampleFSWithTarget.files sampleInfo.original_path = some c ∧
      (FileOrganizer.organize sampleInfo "/anime" .Copy false sampleFSWithTarget []).2.1.files
        (targetPathOf sampleInfo "/anime") = some c ∧
      ([9, 9] ≠ c →
        (FileOrganizer.organize sampleInfo "/anime" .Copy false sampleFSWithTarget []).2.1.files
          (targetPathOf sampleInfo "/anime") ≠ some [9, 9])) ∧
    (FileOrganizer.organize sampleInfo "/anime" .Copy false sampleFSWithTarget
        (none :: none :: some 13 :: some 13 :: [])).2.1.files
      (targetPathOf sampleInfo "/anime") = none :=
  ⟨organize_overwrite_last_write_wins.1 sampleInfo "/anime" .Copy sampleFSWithTarget [] [9, 9]
     (FileOrganizer.organize sampleInfo "/anime" .Copy false sampleFSWithTarget []).2.1
     (FileOrganizer.organize sampleInfo "/anime" .Copy false sampleFSWithTarget []).2.2 rfl rfl,
   organize_overwrite_last_write_wins.2 sampleInfo "/anime" .Copy sampleFSWithTarget
     13 13 [] [9, 9] rfl⟩

/-- C3 counterexample: on the modelled platform (Unix), raw OS error 17
(`EEXIST`) is not the cross-device code (`EXDEV` = 18) and is not a
permission-denied failure, so the claim requires it to surface as
`Io`; the engine returns `CrossDeviceLink` instead. -/
theorem hard_link_eexist_counterexample :
    (FileOrganizer.create_hard_link "/a/s.mp4" "/b/t.mp4"
        { files := fun _ => none, dirs := fun _ => false } [some 17]).1 =
      .error .CrossDeviceLink ∧
    (17 : Int) ≠ unixCrossDeviceCode ∧
    errorKindOf 17 ≠ .permissionDenied ∧
    (Except.error AppError.CrossDeviceLink : Except AppError Unit) ≠ .error (.Io 17) := by
  refine ⟨rfl, by decide, by decide, ?_⟩
  intro h
  injection h with h
  exact absurd h (by decide)

/-- C3 (amended): a hard-link failure with the platform cross-device
code (`EXDEV` = 18 on Unix) is returned as `CrossDeviceLink`; a
permission-denied failure is returned as `HardLinkNotSupported`
(`LinkUnsupported`); every other failure is returned as `Io` wrapping
the raw OS error, except raw code 17 (`ERROR_NOT_SAME_DEVICE` on
Windows, but `EEXIST` on Unix), which is also returned as
`CrossDeviceLink` because the engine checks codes 17 and 18
unconditionally.  In Link mode, `organize` propagates the classified
error without attempting any fallback transfer: the file table is
returned untouched. -/
theorem create_hard_link_classification :
    (∀ (source target : String) (fs : FS) (e : Int) (rest : List (Option Int)),
      (e = unixCrossDeviceCode →
        (FileOrganizer.create_hard_link source target fs (some e :: rest)).1 =
          .error .CrossDeviceLink) ∧
      (errorKindOf e = .permissionDenied →
        (FileOrganizer.create_hard_link source target fs (some e :: rest)).1 =
          .error .HardLinkNotSupported) ∧
      (e ≠ 17 → e ≠ 18 → errorKindOf e ≠ .permissionDenied →
        (FileOrganizer.create_hard_link source target fs (some e :: rest)).1 =
          .error (.Io e)) ∧
      (e = 17 →
        (FileOrganizer.create_hard_link source target fs (some e :: rest)).1 =
          .error .CrossDeviceLink)) ∧
    (∀ (info : AnimeFileInfo) (root : String) (fs : FS) (e : Int) (rest : List (Option Int)),
      fs.pathExists (targetPathOf info root) = false →
      ∃ err, FileOrganizer.organize info root .Link false fs (none :: some e :: rest) =
          (.error err, fsCreateDirAll fs (targetDirOf info root), []) ∧
        (FileOrganizer.create_hard_link info.original_path (targetPathOf info root)
            (fsCreateDirAll fs (targetDirOf info root)) (some e :: rest)).1 = .error err ∧
        ∀ q, (fsCreateDirAll fs (targetDirOf info root)).files q = fs.files q) := by
  constructor
  · intro source target fs e rest
    have hperm : errorKindOf e = .permissionDenied → e = 1 ∨ e = 13 := by
      intro h
      unfold errorKindOf at h
      split at h
      · cases h
      · split at h
        · rename_i hc
          simpa using hc
        · split at h
          · cases h
          · split at h
            · cases h
            · cases h
    refine ⟨?_, ?_, ?_, ?_⟩
    · intro he
      subst he
      rfl
    · intro hk
      rcases hperm hk with rfl | rfl <;> rfl
    · intro h17 h18 hk
      unfold FileOrganizer.create_hard_link runFsOp
      simp only
      rw [if_neg ?_, if_neg hk]
      simp only [Bool.or_eq_true, decide_eq_true_eq, not_or]
      exact ⟨h17, h18⟩
    · intro he
      subst he
      rfl
  · intro info root fs e rest hne
    have h1 : (fsCreateDirAll fs (targetDirOf info root)).pathExists
        (targetPathOf info root) = false := by
      simp only [FS.pathExists, Bool.or_eq_false_iff] at hne ⊢
      refine ⟨hne.1, ?_⟩
      show (if targetPathOf info root = targetDirOf info root then true
            else fs.dirs (targetPathOf info root)) = false
      rw [if_neg (targetPathOf_ne_targetDirOf info root)]
      exact hne.2
    unfold FileOrganizer.organize
    simp only [Bool.false_eq_true, if_false]
    rw [show runFsOp (fun f => Except.ok (fsCreateDirAll f (targetDirOf info root)))
          fs (none :: some e :: rest) =
        (.ok (fsCreateDirAll fs (targetDirOf info root)), some e :: rest) from rfl]
    simp only [h1, Bool.false_eq_true, if_false]
    rcases hcl : FileOrganizer.create_hard_link info.original_path (targetPathOf info root)
        (fsCreateDirAll fs (targetDirOf info root)) (some e :: rest) with ⟨res, s2⟩
    rcases res with err | fs3
    · exact ⟨err, rfl, rfl, fun q => rfl⟩
    · exfalso
      unfold FileOrganizer.create_hard_link runFsOp at hcl
      simp only at hcl
      injection hcl with hA hB
      split at hA
      · cases hA
      · split at hA
        · cases hA
        · cases hA

/-- C3 witness for the amended claim: the classification at concrete
codes 18 (cross-device), 13 (permission denied), 30 (other), and the
Link-mode propagation at a concrete filesystem. -/
theorem create_hard_link_classification_witness :
    (FileOrganizer.create_hard_link "/a/s" "/b/t" sampleFS [some 18]).1 =
      .error .CrossDeviceLink ∧
    (FileOrganizer.create_hard_link "/a/s" "/b/t" sampleFS [some 13]).1 =
      .error .HardLinkNotSupported ∧
    (FileOrganizer.create_hard_link "/a/s" "/b/t" sampleFS [some 30]).1 =
      .error (.Io 30) ∧
    ∃ err, FileOrganizer.organize sampleInfo "/anime" .Link false sampleFS
        (none :: some 18 :: []) =
        (.error err, fsCreateDirAll sampleFS (targetDirOf sampleInfo "/anime"), []) ∧
      (FileOrganizer.create_hard_link sampleInfo.original_path
          (targetPathOf sampleInfo "/anime")
          (fsCreateDirAll sampleFS (targetDirOf sampleInfo "/anime")) (some 18 :: [])).1 =
        .error err ∧
      ∀ q, (fsCreateDirAll sampleFS (targetDirOf sampleInfo "/anime")).files q =
        sampleFS.files q :=
  ⟨((create_hard_link_classification.1 "/a/s" "/b/t" sampleFS 18 []).1 rfl),
   ((create_hard_link_classification.1 "/a/s" "/b/t" sampleFS 13 []).2.1 (by decide)),
   ((create_hard_link_classification.1 "/a/s" "/b/t" sampleFS 30 []).2.2.1
     (by decide) (by decide) (by decide)),
   (create_hard_link_classification.2 sampleInfo "/anime" sampleFS 18 [] rfl)⟩

/-- C10: the engine checks raw OS error codes 17 and 18 unconditionally
(regardless of the error kind, so the code check takes precedence over
the permission-denied check): any injected failure with code 17 or 18
is returned as `CrossDeviceLink`, even though on Unix code 17 is
`EEXIST` (kind `AlreadyExists`, not a cross-device condition); in
particular a semantic `EEXIST` failure (link target already present)
is classified as `CrossDeviceLink` rather than `Io`. -/
theorem hard_link_code_check_unconditional :
    (∀ (source target : String) (fs : FS) (e : Int) (rest : List (Option Int)),
      e = 17 ∨ e = 18 →
      (FileOrganizer.create_hard_link source target fs (some e :: rest)).1 =
        .error .CrossDeviceLink) ∧
    errorKindOf 17 = .alreadyExists ∧
    errorKindOf 17 ≠ .crossesDevices ∧
    errorKindOf 17 ≠ .permissionDenied ∧
    (∀ (source target : String) (fs : FS) (c c2 : List Nat) (rest : List (Option Int)),
      fs.files source = some c → fs.files target = some c2 →
      (FileOrganizer.create_hard_link source target fs (none :: rest)).1 =
        .error .CrossDeviceLink) := by
  refine ⟨?_, by decide, by decide, by decide, ?_⟩
  · intro source target fs e rest h
    rcases h with rfl | rfl <;> rfl
  · intro source target fs c c2 rest h1 h2
    unfold FileOrganizer.create_hard_link runFsOp ioHardLink
    dsimp only
    rw [h1, h2]
    rfl

/-- C10 witness: concrete instances of both conjuncts. -/
theorem hard_link_code_check_unconditional_witness :
    (FileOrganizer.create_hard_link "/x" "/y" sampleFS [some 17]).1 =
      .error .CrossDeviceLink ∧
    (FileOrganizer.create_hard_link "/dl/src.mp4" "/dl/src.mp4" sampleFS [none]).1 =
      .error .CrossDeviceLink :=
  ⟨hard_link_code_check_unconditional.1 "/x" "/y" sampleFS 17 [] (Or.inl rfl),
   hard_link_code_check_unconditional.2.2.2.2 "/dl/src.mp4" "/dl/src.mp4" sampleFS
     [1, 2, 3] [1, 2, 3] [] rfl rfl⟩

/-! ## Parser proof layer -/

theorem dropWhile_eq_self_of_head {p : Char → Bool} {l : List Char}
    (h : ∀ c, l.head? = some c → p c = false) : l.dropWhile p = l := by
  cases l with
  | nil => rfl
  | cons c t => exact List.dropWhile_cons_of_neg (by simp [h c rfl])

theorem head?_dropWhile_false (p : Char → Bool) (l : List Char) :
    ∀ c, (l.dropWhile p).head? = some c → p c = false := by
  intro c hc
  have h := List.head?_dropWhile_not p l
  rw [hc] at h
  exact h

theorem rustTrim_eq_self {l : List Char}
    (h1 : ∀ c, l.head? = some c → isWsChar c = false)
    (h2 : ∀ c, l.getLast? = some c → isWsChar c = false) : rustTrim l = l := by
  unfold rustTrim
  rw [dropWhile_eq_self_of_head h1, dropWhile_eq_self_of_head ?_, List.reverse_reverse]
  intro c hc
  exact h2 c (by rwa [List.head?_reverse] at hc)

theorem chompWs_run {w l : List Char} (hw1 : w ≠ []) (hw2 : w.all isWsChar)
    (hl : ∀ c, l.head? = some c → isWsChar c = false) : chompWs (w ++ l) = some l := by
  rcases w with _ | ⟨c, t⟩
  · exact absurd rfl hw1
  · simp only [List.all_cons, Bool.and_eq_true] at hw2
    unfold chompWs
    simp only [List.cons_append]
    rw [if_pos hw2.1, List.dropWhile_append_of_pos (by simpa using fun a ha => List.all_eq_true.mp hw2.2 a ha)]
    rw [dropWhile_eq_self_of_head hl]

theorem chompWs_some_decomp {l r : List Char} (h : chompWs l = some r) :
    ∃ w, l = w ++ r ∧ w ≠ [] ∧ w.all isWsChar ∧
      (∀ c, r.head? = some c → isWsChar c = false) := by
  rcases l with _ | ⟨c, t⟩
  · simp [chompWs] at h
  · rw [show chompWs (c :: t) =
        if isWsChar c then some (t.dropWhile isWsChar) else none from rfl] at h
    split at h
    · injection h with h
      subst h
      refine ⟨c :: t.takeWhile isWsChar, ?_, by simp, ?_, head?_dropWhile_false _ _⟩
      · simp [List.takeWhile_append_dropWhile]
      · simp only [List.all_cons, Bool.and_eq_true]
        exact ⟨by assumption, List.all_takeWhile⟩
    · cases h

theorem ws_char_cases {c : Char} (h : isWsChar c = true) :
    c = ' ' ∨ c = '\t' ∨ c = '\n' ∨ c = '\x0b' ∨ c = '\x0c' ∨ c = '\r' := by
  simpa [isWsChar, Bool.or_eq_true, decide_eq_true_eq, or_assoc] using h

theorem not_ws_of_digit {c : Char} (h : isDigitChar c = true) : isWsChar c = false := by
  cases hw : isWsChar c
  · rfl
  · rcases ws_char_cases hw with rfl | rfl | rfl | rfl | rfl | rfl <;> exact absurd h (by decide)

theorem not_ws_of_word {c : Char} (h : isWordChar c = true) : isWsChar c = false := by
  cases hw : isWsChar c
  · rfl
  · rcases ws_char_cases hw with rfl | rfl | rfl | rfl | rfl | rfl <;> exact absurd h (by decide)

theorem endsNonWs_tail {c : Char} {t : List Char} (h : EndsNonWs (c :: t))
    (hc : isWsChar c = true) : t ≠ [] ∧ EndsNonWs t := by
  rcases t with _ | ⟨d, t2⟩
  · exact absurd (h c rfl) (by simp [hc])
  · exact ⟨by simp, fun e he => h e (by rwa [List.getLast?_cons_cons])⟩

theorem dropWhile_ne_nil_of_endsNonWs {u : List Char} (hne : u ≠ [])
    (h : EndsNonWs u) : u.dropWhile isWsChar ≠ [] := by
  intro hd
  have hall : ∀ x ∈ u, isWsChar x = true := by
    intro x hx
    have := List.dropWhile_eq_nil_iff.mp hd
    exact this x hx
  rcases hv : u.getLast? with _ | d
  · exact hne (List.getLast?_eq_none_iff.mp hv)
  · have hmem : d ∈ u := List.mem_of_mem_getLast? (by rw [hv]; exact rfl)
    exact absurd (hall d hmem) (by simp [h d hv])

theorem getLast?_dropWhile_ne_nil {p : Char → Bool} {u : List Char}
    (h : u.dropWhile p ≠ []) : (u.dropWhile p).getLast? = u.getLast? := by
  conv_rhs => rw [← List.takeWhile_append_dropWhile (p := p) (l := u)]
  rw [List.getLast?_append]
  rcases hv : (u.dropWhile p).getLast? with _ | d
  · exact absurd (List.getLast?_eq_none_iff.mp hv) h
  · rfl

theorem endsNonWs_dropWhile {p : Char → Bool} {u : List Char}
    (h : EndsNonWs u) (hne : u.dropWhile p ≠ []) : EndsNonWs (u.dropWhile p) := by
  intro c hc
  rw [getLast?_dropWhile_ne_nil hne] at hc
  exact h c hc


theorem isEmpty_false_of_ne_nil {α : Type} {l : List α} (h : l ≠ []) : l.isEmpty = false := by
  rcases l with _ | ⟨c, t⟩
  · exact absurd rfl h
  · rfl

theorem endsNonWs_of_cons {d : Char} {t : List Char} (h : EndsNonWs (d :: t))
    (ht : t ≠ []) : EndsNonWs t := by
  intro e he
  apply h e
  rcases t with _ | ⟨x, t2⟩
  · exact absurd rfl ht
  · rw [List.getLast?_cons_cons]
    exact he

theorem takeWhile_length_ne_of_dropWhile_ne_nil {p : Char → Bool} {l : List Char}
    (h : l.dropWhile p ≠ []) : ¬(l.takeWhile p).length = l.length := by
  intro hlen
  have hsum := congrArg List.length (List.takeWhile_append_dropWhile (p := p) (l := l))
  rw [List.length_append, hlen] at hsum
  have hz : (l.dropWhile p).length = 0 := by omega
  exact h (List.eq_nil_of_length_eq_zero hz)

/-- `matchTagsExt` on the well-formed block `S]·E`. -/
theorem matchTagsExt_template {S E : List Char} (hS1 : S ≠ [])
    (hS2 : S.any (· = '\n') = false) (hE1 : E ≠ []) (hE2 : E.all isWordChar) :
    matchTagsExt (S ++ ']' :: '.' :: E) = some (S, '.' :: E) := by
  unfold matchTagsExt
  have hrev : (S ++ ']' :: '.' :: E).reverse = E.reverse ++ '.' :: ']' :: S.reverse := by
    simp
  rw [hrev]
  dsimp only
  have htw : (E.reverse ++ '.' :: ']' :: S.reverse).takeWhile isWordChar = E.reverse := by
    rw [List.takeWhile_append_of_pos
        (by intro a ha; exact List.all_eq_true.mp (by simpa using hE2) a ha)]
    rw [List.takeWhile_cons_of_neg (by decide)]
    simp
  have hdw : (E.reverse ++ '.' :: ']' :: S.reverse).dropWhile isWordChar =
      '.' :: ']' :: S.reverse := by
    rw [List.dropWhile_append_of_pos
        (by intro a ha; exact List.all_eq_true.mp (by simpa using hE2) a ha)]
    rw [List.dropWhile_cons_of_neg (by decide)]
  rw [htw, hdw]
  have hE3 : E.reverse.isEmpty = false := isEmpty_false_of_ne_nil (by simpa using hE1)
  have hS3 : S.reverse.isEmpty = false := isEmpty_false_of_ne_nil (by simpa using hS1)
  have hS4 : (S.reverse.any fun x => decide (x = '\n')) = false := by
    rw [List.any_reverse]
    exact hS2
  simp only [hE3, hS3, hS4, Bool.false_eq_true, if_false, List.reverse_reverse]

/-- `matchEpisodeTagsExt` on the well-formed tail `␣N␣[S]·E`. -/
theorem matchEpisodeTagsExt_template {N S E : List Char}
    (hN1 : N ≠ []) (hN2 : N.all isDigitChar)
    (hS1 : S ≠ []) (hS2 : S.any (· = '\n') = false)
    (hE1 : E ≠ []) (hE2 : E.all isWordChar) :
    matchEpisodeTagsExt (' ' :: (N ++ ' ' :: '[' :: (S ++ ']' :: '.' :: E))) =
      some (N, '[' :: (S ++ [']']), '.' :: E) := by
  have hNhead : ∀ c, (N ++ ' ' :: '[' :: (S ++ ']' :: '.' :: E)).head? = some c →
      isWsChar c = false := by
    rcases N with _ | ⟨n, N2⟩
    · exact absurd rfl hN1
    · intro c hc
      injection hc with hc
      subst hc
      exact not_ws_of_digit (by simp [List.all_cons] at hN2; exact hN2.1)
  have h1 : chompWs (' ' :: (N ++ ' ' :: '[' :: (S ++ ']' :: '.' :: E))) =
      some (N ++ ' ' :: '[' :: (S ++ ']' :: '.' :: E)) := by
    have := chompWs_run (w := [' ']) (l := N ++ ' ' :: '[' :: (S ++ ']' :: '.' :: E))
      (by simp) (by decide) hNhead
    simpa using this
  unfold matchEpisodeTagsExt
  rw [h1]
  have htw : (N ++ ' ' :: '[' :: (S ++ ']' :: '.' :: E)).takeWhile isDigitChar = N := by
    rw [List.takeWhile_append_of_pos (by intro a ha; exact List.all_eq_true.mp hN2 a ha)]
    rw [List.takeWhile_cons_of_neg (by decide)]
    simp
  have hdw : (N ++ ' ' :: '[' :: (S ++ ']' :: '.' :: E)).dropWhile isDigitChar =
      ' ' :: '[' :: (S ++ ']' :: '.' :: E) := by
    rw [List.dropWhile_append_of_pos (by intro a ha; exact List.all_eq_true.mp hN2 a ha)]
    rw [List.dropWhile_cons_of_neg (by decide)]
  simp only [htw, hdw, isEmpty_false_of_ne_nil hN1, Bool.false_eq_true, if_false]
  have h2 : chompWs (' ' :: '[' :: (S ++ ']' :: '.' :: E)) =
      some ('[' :: (S ++ ']' :: '.' :: E)) := by
    have := chompWs_run (w := [' ']) (l := '[' :: (S ++ ']' :: '.' :: E))
      (by simp) (by decide) (by intro c hc; injection hc with hc; subst hc; decide)
    simpa using this
  rw [h2]
  show Option.map (fun pr => (N, '[' :: (pr.1 ++ [']']), pr.2))
      (matchTagsExt (S ++ ']' :: '.' :: E)) = some (N, '[' :: (S ++ [']']), '.' :: E)
  rw [matchTagsExt_template hS1 hS2 hE1 hE2]
  rfl

/-- `matchSepTail` on the well-formed separator tail `␣-␣N␣[S]·E`. -/
theorem matchSepTail_template {N S E : List Char}
    (hN1 : N ≠ []) (hN2 : N.all isDigitChar)
    (hS1 : S ≠ []) (hS2 : S.any (· = '\n') = false)
    (hE1 : E ≠ []) (hE2 : E.all isWordChar) :
    matchSepTail (' ' :: '-' :: ' ' :: (N ++ ' ' :: '[' :: (S ++ ']' :: '.' :: E))) =
      some (N, '[' :: (S ++ [']']), '.' :: E) := by
  unfold matchSepTail
  have h1 : chompWs (' ' :: '-' :: ' ' :: (N ++ ' ' :: '[' :: (S ++ ']' :: '.' :: E))) =
      some ('-' :: ' ' :: (N ++ ' ' :: '[' :: (S ++ ']' :: '.' :: E))) := by
    have := chompWs_run (w := [' '])
      (l := '-' :: ' ' :: (N ++ ' ' :: '[' :: (S ++ ']' :: '.' :: E)))
      (by simp) (by decide) (by intro c hc; injection hc with hc; subst hc; decide)
    simpa using this
  rw [h1]
  exact matchEpisodeTagsExt_template hN1 hN2 hS1 hS2 hE1 hE2


/-- No character of the episode/tags/extension tail pattern can begin
inside bracket-free title text: `matchEpisodeTagsExt` fails on any
input made of a piece of such text followed by the separator residue
`␣-…`. -/
theorem matchEpisodeTagsExt_fail_inside {v z : List Char}
    (hv : v = [] ∨ (v ≠ [] ∧ (∀ c ∈ v, ¬c = '[') ∧ EndsNonWs v)) :
    matchEpisodeTagsExt (v ++ ' ' :: '-' :: z) = none := by
  rcases hv with rfl | ⟨hne, hnb, hend⟩
  · unfold matchEpisodeTagsExt
    have h1 : chompWs ([] ++ ' ' :: '-' :: z) = some ('-' :: z) := by
      have := chompWs_run (w := [' ']) (l := '-' :: z) (by simp) (by decide)
        (by intro c hc; injection hc with hc; subst hc; decide)
      simpa using this
    rw [h1]
    dsimp only
    rw [List.takeWhile_cons_of_neg (by decide)]
    rfl
  · rcases v with _ | ⟨f, v1⟩
    · exact absurd rfl hne
    by_cases hf : isWsChar f
    case neg =>
      unfold matchEpisodeTagsExt
      rw [show chompWs ((f :: v1) ++ ' ' :: '-' :: z) =
          (if isWsChar f then some ((v1 ++ ' ' :: '-' :: z).dropWhile isWsChar) else none)
          from rfl]
      rw [if_neg hf]
    case pos =>
    obtain ⟨hv1ne, hv1end⟩ := endsNonWs_tail hend hf
    have hv2ne : v1.dropWhile isWsChar ≠ [] := dropWhile_ne_nil_of_endsNonWs hv1ne hv1end
    have hv2end : EndsNonWs (v1.dropWhile isWsChar) := endsNonWs_dropWhile hv1end hv2ne
    have hv2mem : ∀ c ∈ v1.dropWhile isWsChar, ¬c = '[' := by
      intro c hc
      exact hnb c (List.mem_cons_of_mem f (List.dropWhile_subset isWsChar hc))
    have h1 : chompWs ((f :: v1) ++ ' ' :: '-' :: z) =
        some (v1.dropWhile isWsChar ++ ' ' :: '-' :: z) := by
      rw [show chompWs ((f :: v1) ++ ' ' :: '-' :: z) =
          (if isWsChar f then some ((v1 ++ ' ' :: '-' :: z).dropWhile isWsChar) else none)
          from rfl]
      rw [if_pos hf, List.dropWhile_append,
        if_neg (by simp [isEmpty_false_of_ne_nil hv2ne])]
    unfold matchEpisodeTagsExt
    rw [h1]
    dsimp only
    by_cases h3 : (v1.dropWhile isWsChar).dropWhile isDigitChar = []
    case pos =>
      have hall : ∀ x ∈ v1.dropWhile isWsChar, isDigitChar x = true :=
        List.dropWhile_eq_nil_iff.mp h3
      have htk : (v1.dropWhile isWsChar ++ ' ' :: '-' :: z).takeWhile isDigitChar =
          v1.dropWhile isWsChar := by
        rw [List.takeWhile_append_of_pos hall, List.takeWhile_cons_of_neg (by decide)]
        simp
      have hdp : (v1.dropWhile isWsChar ++ ' ' :: '-' :: z).dropWhile isDigitChar =
          ' ' :: '-' :: z := by
        rw [List.dropWhile_append_of_pos hall, List.dropWhile_cons_of_neg (by decide)]
      rw [htk, hdp, if_neg (by simp [isEmpty_false_of_ne_nil hv2ne])]
      have h2 : chompWs (' ' :: '-' :: z) = some ('-' :: z) := by
        have := chompWs_run (w := [' ']) (l := '-' :: z) (by simp) (by decide)
          (by intro c hc; injection hc with hc; subst hc; decide)
        simpa using this
      rw [h2]
      split
      · rename_i heq
        cases heq
      · rename_i r4 heq
        injection heq with heq
        subst heq
        split
        · rename_i r5 heq2
          injection heq2 with ha hb
          exact absurd ha (by decide)
        · rfl
    case neg =>
      have hep : (v1.dropWhile isWsChar ++ ' ' :: '-' :: z).takeWhile isDigitChar =
          (v1.dropWhile isWsChar).takeWhile isDigitChar := by
        rw [List.takeWhile_append, if_neg (takeWhile_length_ne_of_dropWhile_ne_nil h3)]
      rw [hep]
      by_cases hepn : ((v1.dropWhile isWsChar).takeWhile isDigitChar).isEmpty = true
      · rw [if_pos hepn]
      rw [if_neg hepn]
      have hdp : (v1.dropWhile isWsChar ++ ' ' :: '-' :: z).dropWhile isDigitChar =
          (v1.dropWhile isWsChar).dropWhile isDigitChar ++ ' ' :: '-' :: z := by
        rw [List.dropWhile_append, if_neg (by simp [isEmpty_false_of_ne_nil h3])]
      rw [hdp]
      have hEnd3 : EndsNonWs ((v1.dropWhile isWsChar).dropWhile isDigitChar) :=
        endsNonWs_dropWhile hv2end h3
      have hmem3 : ∀ c ∈ (v1.dropWhile isWsChar).dropWhile isDigitChar, ¬c = '[' := by
        intro c hc
        exact hv2mem c (List.dropWhile_subset isDigitChar hc)
      rcases hv3l : (v1.dropWhile isWsChar).dropWhile isDigitChar with _ | ⟨g, v3⟩
      · exact absurd hv3l h3
      rw [hv3l] at hEnd3 hmem3
      by_cases hg : isWsChar g
      case neg =>
        rw [show chompWs ((g :: v3) ++ ' ' :: '-' :: z) =
            (if isWsChar g then some ((v3 ++ ' ' :: '-' :: z).dropWhile isWsChar) else none)
            from rfl]
        rw [if_neg hg]
      case pos =>
      obtain ⟨hv3ne, hv3end⟩ := endsNonWs_tail hEnd3 hg
      have hv4ne : v3.dropWhile isWsChar ≠ [] := dropWhile_ne_nil_of_endsNonWs hv3ne hv3end
      have h4 : chompWs ((g :: v3) ++ ' ' :: '-' :: z) =
          some (v3.dropWhile isWsChar ++ ' ' :: '-' :: z) := by
        rw [show chompWs ((g :: v3) ++ ' ' :: '-' :: z) =
            (if isWsChar g then some ((v3 ++ ' ' :: '-' :: z).dropWhile isWsChar) else none)
            from rfl]
        rw [if_pos hg, List.dropWhile_append,
          if_neg (by simp [isEmpty_false_of_ne_nil hv4ne])]
      rw [h4]
      rcases hv4l : v3.dropWhile isWsChar with _ | ⟨h5, v4⟩
      · exact absurd hv4l hv4ne
      have h5mem : ¬h5 = '[' := by
        apply hmem3 h5
        apply List.mem_cons_of_mem g
        exact List.dropWhile_subset isWsChar (by rw [hv4l]; exact List.mem_cons_self h5 v4)
      split
      · rename_i heq
        cases heq
      · rename_i r4 heq
        injection heq with heq
        subst heq
        split
        · rename_i r5 heq2
          injection heq2 with ha hb
          exact absurd ha h5mem
        · rfl


/-- `matchSepTail` fails when anchored inside bracket-free title text:
the separator pattern cannot begin strictly inside the title segment. -/
theorem matchSepTail_fail_inside {t z : List Char} (ht1 : t ≠ [])
    (ht2 : ∀ c ∈ t, ¬c = '[') (ht3 : EndsNonWs t) :
    matchSepTail (t ++ ' ' :: '-' :: z) = none := by
  rcases t with _ | ⟨c, t1⟩
  · exact absurd rfl ht1
  by_cases hc : isWsChar c
  case neg =>
    unfold matchSepTail
    rw [show chompWs ((c :: t1) ++ ' ' :: '-' :: z) =
        (if isWsChar c then some ((t1 ++ ' ' :: '-' :: z).dropWhile isWsChar) else none)
        from rfl]
    rw [if_neg hc]
  case pos =>
  obtain ⟨ht1ne, ht1end⟩ := endsNonWs_tail ht3 hc
  have hne2 : t1.dropWhile isWsChar ≠ [] := dropWhile_ne_nil_of_endsNonWs ht1ne ht1end
  have hend2 : EndsNonWs (t1.dropWhile isWsChar) := endsNonWs_dropWhile ht1end hne2
  have hmem2 : ∀ x ∈ t1.dropWhile isWsChar, ¬x = '[' := by
    intro x hx
    exact ht2 x (List.mem_cons_of_mem c (List.dropWhile_subset isWsChar hx))
  have h1 : chompWs ((c :: t1) ++ ' ' :: '-' :: z) =
      some (t1.dropWhile isWsChar ++ ' ' :: '-' :: z) := by
    rw [show chompWs ((c :: t1) ++ ' ' :: '-' :: z) =
        (if isWsChar c then some ((t1 ++ ' ' :: '-' :: z).dropWhile isWsChar) else none)
        from rfl]
    rw [if_pos hc, List.dropWhile_append,
      if_neg (by simp [isEmpty_false_of_ne_nil hne2])]
  unfold matchSepTail
  rw [h1]
  rcases ht2l : t1.dropWhile isWsChar with _ | ⟨d, t2⟩
  · exact absurd ht2l hne2
  rw [ht2l] at hend2 hmem2
  by_cases hd : d = '-'
  case pos =>
    subst hd
    show matchEpisodeTagsExt (t2 ++ ' ' :: '-' :: z) = none
    apply matchEpisodeTagsExt_fail_inside
    rcases t2 with _ | ⟨e, t3⟩
    · exact Or.inl rfl
    · refine Or.inr ⟨by simp, ?_, endsNonWs_of_cons hend2 (by simp)⟩
      intro x hx
      exact hmem2 x (List.mem_cons_of_mem _ hx)
  case neg =>
    split
    · rename_i heq
      cases heq
    · rename_i r1 heq
      injection heq with heq
      subst heq
      split
      · rename_i r2 heq2
        injection heq2 with ha hb
        exact absurd ha hd
      · rfl

/-- The lazy anime search on the well-formed template: every proper
split fails, so the full bracket-free title is captured. -/
theorem animeSearch_template {N S E : List Char} (acc t : List Char)
    (hN1 : N ≠ []) (hN2 : N.all isDigitChar)
    (hS1 : S ≠ []) (hS2 : S.any (· = '\n') = false)
    (hE1 : E ≠ []) (hE2 : E.all isWordChar)
    (ht1 : t ≠ [])
    (ht2 : ∀ c ∈ t, ¬c = '[' ∧ ¬c = '\n')
    (ht3 : EndsNonWs t) :
    animeSearch acc (t ++ ' ' :: '-' :: ' ' :: (N ++ ' ' :: '[' :: (S ++ ']' :: '.' :: E))) =
      some (acc ++ t, N, '[' :: (S ++ [']']), '.' :: E) := by
  induction t generalizing acc with
  | nil => exact absurd rfl ht1
  | cons c t1 ih =>
    rw [show ((c :: t1) ++ ' ' :: '-' :: ' ' :: (N ++ ' ' :: '[' :: (S ++ ']' :: '.' :: E))) =
        c :: (t1 ++ ' ' :: '-' :: ' ' :: (N ++ ' ' :: '[' :: (S ++ ']' :: '.' :: E)))
        from rfl]
    rw [show animeSearch acc
        (c :: (t1 ++ ' ' :: '-' :: ' ' :: (N ++ ' ' :: '[' :: (S ++ ']' :: '.' :: E)))) =
        (if c = '\n' then none
         else
           match matchSepTail (t1 ++ ' ' :: '-' :: ' ' :: (N ++ ' ' :: '[' :: (S ++ ']' :: '.' :: E))) with
           | some (ep, tg, ex) => some (acc ++ [c], ep, tg, ex)
           | none => animeSearch (acc ++ [c])
               (t1 ++ ' ' :: '-' :: ' ' :: (N ++ ' ' :: '[' :: (S ++ ']' :: '.' :: E))))
        from rfl]
    rw [if_neg (ht2 c (List.mem_cons_self c t1)).2]
    rcases t1 with _ | ⟨d, t2⟩
    · rw [show (([] : List Char) ++ ' ' :: '-' :: ' ' :: (N ++ ' ' :: '[' :: (S ++ ']' :: '.' :: E))) =
          ' ' :: '-' :: ' ' :: (N ++ ' ' :: '[' :: (S ++ ']' :: '.' :: E)) from rfl]
      rw [matchSepTail_template hN1 hN2 hS1 hS2 hE1 hE2]
    · have hfail : matchSepTail ((d :: t2) ++ ' ' :: '-' ::
          (' ' :: (N ++ ' ' :: '[' :: (S ++ ']' :: '.' :: E)))) = none := by
        apply matchSepTail_fail_inside (by simp) ?_ (endsNonWs_of_cons ht3 (by simp))
        intro x hx
        exact (ht2 x (List.mem_cons_of_mem c hx)).1
      rw [show (' ' :: '-' :: ' ' :: (N ++ ' ' :: '[' :: (S ++ ']' :: '.' :: E))) =
          ' ' :: '-' :: (' ' :: (N ++ ' ' :: '[' :: (S ++ ']' :: '.' :: E))) from rfl]
      rw [hfail]
      have := ih (acc ++ [c]) (by simp)
        (fun x hx => ht2 x (List.mem_cons_of_mem c hx))
        (endsNonWs_of_cons ht3 (by simp))
      rw [show (' ' :: '-' :: (' ' :: (N ++ ' ' :: '[' :: (S ++ ']' :: '.' :: E)))) =
          ' ' :: '-' :: ' ' :: (N ++ ' ' :: '[' :: (S ++ ']' :: '.' :: E)) from rfl]
      rw [this]
      simp


/-- Unfolding of the regex matcher on a name starting with `[`. -/
theorem animeFileRegexCaptures_bracket (rest : List Char) :
    animeFileRegexCaptures ('[' :: rest) =
      (if (rest.takeWhile (fun c => !(c = ']'))).isEmpty then none
       else
         match rest.dropWhile (fun c => !(c = ']')) with
         | ']' :: r1 =>
           match wsSearch r1 (r1.takeWhile isWsChar).length with
           | some (an, ep, tg, ex) =>
             some { publisher := rest.takeWhile (fun c => !(c = ']')), anime := an,
                    episode := ep, tags := tg, ext := ex }
           | none => none
         | _ => none) := rfl

/-- The full regex on the well-formed base name
`[G]␣T␣-␣N␣[S]·E` (single spaces): captures `(G, T, N, [S], .E)`. -/
theorem animeFileRegexCaptures_template {G T N S E : List Char}
    (hG1 : G ≠ []) (hG2 : ∀ c ∈ G, ¬c = ']')
    (hT1 : T ≠ []) (hT2 : ∀ c ∈ T, ¬c = '[' ∧ ¬c = '\n')
    (hThead : ∀ c, T.head? = some c → isWsChar c = false)
    (hTlast : EndsNonWs T)
    (hN1 : N ≠ []) (hN2 : N.all isDigitChar)
    (hS1 : S ≠ []) (hS2 : S.any (· = '\n') = false)
    (hE1 : E ≠ []) (hE2 : E.all isWordChar) :
    animeFileRegexCaptures
        ('[' :: (G ++ ']' :: ' ' ::
          (T ++ ' ' :: '-' :: ' ' :: (N ++ ' ' :: '[' :: (S ++ ']' :: '.' :: E))))) =
      some { publisher := G, anime := T, episode := N,
             tags := '[' :: (S ++ [']']), ext := '.' :: E } := by
  have hGall : ∀ a ∈ G, (!(a = ']') : Bool) = true := by
    intro a ha
    simpa using hG2 a ha
  have htk : (G ++ ']' :: ' ' ::
      (T ++ ' ' :: '-' :: ' ' :: (N ++ ' ' :: '[' :: (S ++ ']' :: '.' :: E)))).takeWhile
        (fun c => !(c = ']')) = G := by
    rw [List.takeWhile_append_of_pos hGall, List.takeWhile_cons_of_neg (by decide)]
    simp
  have hdw : (G ++ ']' :: ' ' ::
      (T ++ ' ' :: '-' :: ' ' :: (N ++ ' ' :: '[' :: (S ++ ']' :: '.' :: E)))).dropWhile
        (fun c => !(c = ']')) = ']' :: ' ' ::
      (T ++ ' ' :: '-' :: ' ' :: (N ++ ' ' :: '[' :: (S ++ ']' :: '.' :: E))) := by
    rw [List.dropWhile_append_of_pos hGall, List.dropWhile_cons_of_neg (by decide)]
  have hws : (' ' :: (T ++ ' ' :: '-' :: ' ' ::
      (N ++ ' ' :: '[' :: (S ++ ']' :: '.' :: E)))).takeWhile isWsChar = [' '] := by
    rw [List.takeWhile_cons_of_pos (by decide)]
    rcases T with _ | ⟨c, T1⟩
    · exact absurd rfl hT1
    · rw [show ((c :: T1) ++ ' ' :: '-' :: ' ' :: (N ++ ' ' :: '[' :: (S ++ ']' :: '.' :: E))) =
          c :: (T1 ++ ' ' :: '-' :: ' ' :: (N ++ ' ' :: '[' :: (S ++ ']' :: '.' :: E)))
          from rfl]
      rw [List.takeWhile_cons_of_neg (by simp [hThead c rfl])]
  rw [animeFileRegexCaptures_bracket]
  rw [htk, hdw, if_neg (by simp [isEmpty_false_of_ne_nil hG1])]
  split
  case _ r1 heq =>
    injection heq with ha hb
    subst hb
    rw [hws]
    rw [show ([' '] : List Char).length = 1 from rfl]
    rw [show wsSearch (' ' :: (T ++ ' ' :: '-' :: ' ' ::
          (N ++ ' ' :: '[' :: (S ++ ']' :: '.' :: E)))) 1 =
        (match animeSearch [] ((' ' :: (T ++ ' ' :: '-' :: ' ' ::
          (N ++ ' ' :: '[' :: (S ++ ']' :: '.' :: E)))).drop 1) with
         | some res => some res
         | none => wsSearch (' ' :: (T ++ ' ' :: '-' :: ' ' ::
             (N ++ ' ' :: '[' :: (S ++ ']' :: '.' :: E)))) 0) from rfl]
    rw [show ((' ' :: (T ++ ' ' :: '-' :: ' ' ::
        (N ++ ' ' :: '[' :: (S ++ ']' :: '.' :: E)))).drop 1) =
        T ++ ' ' :: '-' :: ' ' :: (N ++ ' ' :: '[' :: (S ++ ']' :: '.' :: E)) from rfl]
    rw [animeSearch_template [] T hN1 hN2 hS1 hS2 hE1 hE2 hT1 hT2 hTlast]
    rfl
  case _ hx =>
    exact absurd rfl (hx (' ' :: (T ++ ' ' :: '-' :: ' ' ::
      (N ++ ' ' :: '[' :: (S ++ ']' :: '.' :: E)))))


/-- C1: for every path whose base name has the template form
`[G] T - N [S].E` with `G` non-empty and bracket-free, `T` non-empty,
bracket-free, newline-free and not starting or ending in whitespace,
`N` a non-empty digit run, `S` non-empty and newline-free and `E` a
non-empty word-character run, `parse` succeeds and returns
`publisher = trim G`, `anime_name = T` (already trimmed),
`episode = N` left-padded with `0` to width at least 2,
`tags = [S]` brackets included, and `extension = "." ++ lowercase E`. -/
theorem parse_wellformed_template (path name G T N S E : String)
    (hG1 : G ≠ "") (hG2 : ∀ c ∈ G.data, ¬c = ']')
    (hT1 : T ≠ "") (hT2 : ∀ c ∈ T.data, ¬c = '[' ∧ ¬c = '\n')
    (hT3 : ∀ c, T.data.head? = some c → isWsChar c = false)
    (hT4 : ∀ c, T.data.getLast? = some c → isWsChar c = false)
    (hN1 : N ≠ "") (hN2 : N.data.all isDigitChar)
    (hS1 : S ≠ "") (hS2 : S.data.any (· = '\n') = false)
    (hE1 : E ≠ "") (hE2 : E.data.all isWordChar)
    (hname : fileNameOfChars path.data = some name.data)
    (htemp : name = "[" ++ G ++ "] " ++ T ++ " - " ++ N ++ " [" ++ S ++ "]." ++ E) :
    FilenameParser.parse path = some
      { publisher := String.mk (rustTrim G.data)
        anime_name := T
        episode := String.mk (pad2 N.data)
        tags := "[" ++ S ++ "]"
        extension := String.mk ('.' :: lowerStr E.data)
        original_path := path } := by
  have hGd : G.data ≠ [] := fun h => hG1 (by cases G; simp_all)
  have hTd : T.data ≠ [] := fun h => hT1 (by cases T; simp_all)
  have hNd : N.data ≠ [] := fun h => hN1 (by cases N; simp_all)
  have hSd : S.data ≠ [] := fun h => hS1 (by cases S; simp_all)
  have hEd : E.data ≠ [] := fun h => hE1 (by cases E; simp_all)
  have hdata : name.data = '[' :: (G.data ++ ']' :: ' ' ::
      (T.data ++ ' ' :: '-' :: ' ' ::
        (N.data ++ ' ' :: '[' :: (S.data ++ ']' :: '.' :: E.data)))) := by
    subst htemp
    simp [String.data_append]
  unfold FilenameParser.parse
  rw [hname]
  show parseFilenameCore name.data path = _
  unfold parseFilenameCore
  rw [hdata,
    animeFileRegexCaptures_template hGd hG2 hTd hT2 hT3 hT4 hNd hN2 hSd hS2 hEd hE2]
  have htagtrim : rustTrim ('[' :: (S.data ++ [']'])) = '[' :: (S.data ++ [']']) := by
    apply rustTrim_eq_self
    · intro c hc
      injection hc with hc
      subst hc
      decide
    · intro c hc
      rw [show ('[' :: (S.data ++ [']'])) = ('[' :: S.data) ++ [']'] from by simp] at hc
      rw [List.getLast?_concat] at hc
      injection hc with hc
      subst hc
      decide
  have hTtrim : rustTrim T.data = T.data := rustTrim_eq_self hT3 hT4
  show some (AnimeFileInfo.mk (String.mk (rustTrim G.data)) (String.mk (rustTrim T.data))
      (String.mk (pad2 N.data)) (String.mk (rustTrim ('[' :: (S.data ++ [']']))))
      (String.mk (lowerStr ('.' :: E.data))) path) = _
  rw [htagtrim, hTtrim]
  congr 1


theorem all_take_of_le_takeWhile {p : Char → Bool} {l : List Char} {k : Nat}
    (hk : k ≤ (l.takeWhile p).length) : (l.take k).all p := by
  induction l generalizing k with
  | nil => simp
  | cons c t ih =>
    rcases k with _ | k
    · simp
    · by_cases hc : p c
      · rw [List.takeWhile_cons_of_pos hc, List.length_cons,
          Nat.add_le_add_iff_right] at hk
        rw [List.take_succ_cons, List.all_cons, hc]
        simpa using ih hk
      · rw [List.takeWhile_cons_of_neg hc] at hk
        simp at hk

/-- Decomposition of a successful `matchTagsExt`. -/
theorem matchTagsExt_shape {l inner ex : List Char}
    (h : matchTagsExt l = some (inner, ex)) :
    ∃ e, l = inner ++ ']' :: '.' :: e ∧ inner ≠ [] ∧
      (inner.any (· = '\n')) = false ∧ e ≠ [] ∧ e.all isWordChar ∧ ex = '.' :: e := by
  unfold matchTagsExt at h
  dsimp only at h
  split at h
  · cases h
  rename_i herev
  split at h
  case _ innerRev heq =>
    split at h
    · cases h
    rename_i hinne
    split at h
    · cases h
    rename_i hnl
    injection h with h
    injection h with h1 h2
    subst h1
    subst h2
    refine ⟨(l.reverse.takeWhile isWordChar).reverse, ?_, by simpa using hinne, ?_, ?_, ?_, rfl⟩
    · have hl : l.reverse = l.reverse.takeWhile isWordChar ++ '.' :: ']' :: innerRev := by
        conv_lhs => rw [← List.takeWhile_append_dropWhile (p := isWordChar) (l := l.reverse)]
        rw [heq]
      have hthis := congrArg List.reverse hl
      rw [List.reverse_reverse] at hthis
      conv_lhs => rw [hthis]
      simp
    · rw [List.any_reverse]
      exact Bool.eq_false_iff.mpr hnl
    · intro hcon
      exact herev (by simpa using congrArg List.isEmpty (by simpa using hcon :
        l.reverse.takeWhile isWordChar = []))
    · rw [List.all_reverse]
      exact List.all_takeWhile
  case _ hx =>
    cases h

/-- Decomposition of a successful `matchEpisodeTagsExt`. -/
theorem matchEpisodeTagsExt_shape {l ep tg ex : List Char}
    (h : matchEpisodeTagsExt l = some (ep, tg, ex)) :
    ∃ w1 w2 inner e, l = w1 ++ (ep ++ (w2 ++ '[' :: (inner ++ ']' :: '.' :: e))) ∧
      w1 ≠ [] ∧ w1.all isWsChar ∧ ep ≠ [] ∧ ep.all isDigitChar ∧
      w2 ≠ [] ∧ w2.all isWsChar ∧ inner ≠ [] ∧
      (inner.any (· = '\n')) = false ∧ e ≠ [] ∧ e.all isWordChar ∧
      tg = '[' :: (inner ++ [']']) ∧ ex = '.' :: e := by
  unfold matchEpisodeTagsExt at h
  split at h
  · cases h
  case _ r3 heq1 =>
    dsimp only at h
    split at h
    · cases h
    case _ hepne =>
      split at h
      · cases h
      case _ r4 heq2 =>
        split at h
        case _ r5 =>
          rcases hmt : matchTagsExt r5 with _ | ⟨inner2, ex2⟩
          · rw [hmt] at h
            cases h
          · rw [hmt] at h
            injection h with h
            injection h with h1 h2
            injection h2 with h2 h3
            subst h1
            subst h2
            subst h3
            obtain ⟨e, he1, he2, he3, he4, he5, he6⟩ := matchTagsExt_shape hmt
            obtain ⟨w1, hw1, hw1ne, hw1all, -⟩ := chompWs_some_decomp heq1
            obtain ⟨w2, hw2, hw2ne, hw2all, -⟩ := chompWs_some_decomp heq2
            refine ⟨w1, w2, inner2, e, ?_, hw1ne, hw1all, ?_, List.all_takeWhile,
              hw2ne, hw2all, he2, he3, he4, he5, rfl, he6⟩
            · rw [hw1]
              congr 1
              conv_lhs => rw [← List.takeWhile_append_dropWhile (p := isDigitChar) (l := r3)]
              congr 1
              rw [hw2, he1]
            · simpa using hepne
        case _ hx =>
          cases h

/-- Decomposition of a successful `matchSepTail`. -/
theorem matchSepTail_shape {l ep tg ex : List Char}
    (h : matchSepTail l = some (ep, tg, ex)) :
    ∃ w0 l2, l = w0 ++ '-' :: l2 ∧ w0 ≠ [] ∧ w0.all isWsChar ∧
      matchEpisodeTagsExt l2 = some (ep, tg, ex) := by
  unfold matchSepTail at h
  split at h
  · cases h
  case _ r1 heq1 =>
    split at h
    case _ r2 =>
      obtain ⟨w0, hw0, hw0ne, hw0all, -⟩ := chompWs_some_decomp heq1
      exact ⟨w0, r2, by rw [hw0], hw0ne, hw0all, h⟩
    case _ hx =>
      cases h

/-- Decomposition of a successful `animeSearch`. -/
theorem animeSearch_shape {acc l a ep tg ex : List Char}
    (h : animeSearch acc l = some (a, ep, tg, ex)) :
    ∃ u rest, l = u ++ rest ∧ a = acc ++ u ∧ u ≠ [] ∧
      (∀ c ∈ u, ¬c = '\n') ∧ matchSepTail rest = some (ep, tg, ex) := by
  induction l generalizing acc with
  | nil => cases h
  | cons c t ih =>
    rw [show animeSearch acc (c :: t) =
        (if c = '\n' then none
         else
           match matchSepTail t with
           | some (ep2, tg2, ex2) => some (acc ++ [c], ep2, tg2, ex2)
           | none => animeSearch (acc ++ [c]) t) from rfl] at h
    split at h
    · cases h
    case _ hcn =>
      split at h
      case _ ep2 tg2 ex2 heq =>
        injection h with h
        injection h with h1 h2
        injection h2 with h2 h3
        injection h3 with h3 h4
        subst h1
        subst h2
        subst h3
        subst h4
        exact ⟨[c], t, by simp, by simp, by simp, by simpa using hcn, heq⟩
      case _ heq =>
        obtain ⟨u, rest, hu1, hu2, hu3, hu4, hu5⟩ := ih h
        refine ⟨c :: u, rest, by simp [hu1], by simp [hu2], by simp, ?_, hu5⟩
        intro x hx
        rcases List.mem_cons.mp hx with rfl | hx2
        · simpa using hcn
        · exact hu4 x hx2

/-- Decomposition of a successful `wsSearch`. -/
theorem wsSearch_shape {r : List Char} {w : Nat} {res : List Char × List Char × List Char × List Char}
    (h : wsSearch r w = some res) :
    ∃ k, 1 ≤ k ∧ k ≤ w ∧ animeSearch [] (r.drop k) = some res := by
  induction w with
  | zero => cases h
  | succ w2 ih =>
    rw [show wsSearch r (w2 + 1) =
        (match animeSearch [] (r.drop (w2 + 1)) with
         | some res2 => some res2
         | none => wsSearch r w2) from rfl] at h
    split at h
    case _ res2 heq =>
      injection h with h
      subst h
      exact ⟨w2 + 1, by omega, by omega, heq⟩
    case _ heq =>
      obtain ⟨k, hk1, hk2, hk3⟩ := ih h
      exact ⟨k, hk1, by omega, hk3⟩


/-- Decomposition of a successful run of the full regex: every
grammar element of `ANIME_FILE_REGEX` is present in the base name. -/
theorem animeFileRegexCaptures_shape {l : List Char} {caps : RegexCaps}
    (h : animeFileRegexCaptures l = some caps) :
    ∃ wsA u w0 w1 w2 inner e,
      l = '[' :: (caps.publisher ++ ']' :: (wsA ++ (u ++ (w0 ++ '-' ::
        (w1 ++ (caps.episode ++ (w2 ++ '[' :: (inner ++ ']' :: '.' :: e)))))))) ∧
      caps.publisher ≠ [] ∧ (∀ c ∈ caps.publisher, ¬c = ']') ∧
      wsA ≠ [] ∧ wsA.all isWsChar ∧
      caps.anime = u ∧ u ≠ [] ∧ (∀ c ∈ u, ¬c = '\n') ∧
      w0 ≠ [] ∧ w0.all isWsChar ∧ w1 ≠ [] ∧ w1.all isWsChar ∧
      caps.episode ≠ [] ∧ caps.episode.all isDigitChar ∧
      w2 ≠ [] ∧ w2.all isWsChar ∧
      inner ≠ [] ∧ (inner.any (· = '\n')) = false ∧ e ≠ [] ∧ e.all isWordChar ∧
      caps.tags = '[' :: (inner ++ [']']) ∧ caps.ext = '.' :: e := by
  unfold animeFileRegexCaptures at h
  split at h
  case _ rest =>
    dsimp only at h
    split at h
    · cases h
    rename_i hpubne
    split at h
    case _ r1 heq1 =>
      split at h
      case _ an ep tg ex heq2 =>
        injection h with h
        subst h
        dsimp only
        obtain ⟨k, hk1, hk2, hk3⟩ := wsSearch_shape heq2
        obtain ⟨u, rest2, hu1, hu2, hu3, hu4, hu5⟩ := animeSearch_shape hk3
        obtain ⟨w0, l2, hl1, hl2, hl3, hl4⟩ := matchSepTail_shape hu5
        obtain ⟨w1, w2, inner, e, hm1, hm2, hm3, hm4, hm5, hm6, hm7, hm8, hm9, hm10,
          hm11, hm12, hm13⟩ := matchEpisodeTagsExt_shape hl4
        have hrest : rest = rest.takeWhile (fun c => !(c = ']')) ++ ']' :: r1 := by
          conv_lhs =>
            rw [← List.takeWhile_append_dropWhile (p := fun c => !(c = ']')) (l := rest)]
          rw [heq1]
        have hr1 : r1 = r1.take k ++ (u ++ (w0 ++ '-' ::
            (w1 ++ (ep ++ (w2 ++ '[' :: (inner ++ ']' :: '.' :: e)))))) := by
          conv_lhs => rw [← List.take_append_drop k r1]
          rw [hu1, hl1, hm1]
        refine ⟨r1.take k, u, w0, w1, w2, inner, e, ?_, by simpa using hpubne,
          ?_, ?_, all_take_of_le_takeWhile hk2, by simpa using hu2, hu3, hu4,
          hl2, hl3, hm2, hm3, hm4, hm5, hm6, hm7, hm8, hm9, hm10, hm11, hm12, hm13⟩
        · rw [← hr1, ← hrest]
        · intro c hc
          have hall := List.all_takeWhile (p := fun c => !(c = ']')) (l := rest)
          have h2 := List.all_eq_true.mp hall c hc
          simpa using h2
        · intro hcon
          rcases List.take_eq_nil_iff.mp hcon with rfl | rfl
          · omega
          · simp at hk2
            omega
      case _ heq2 =>
        cases h
    case _ hx =>
      cases h
  case _ hx =>
    cases h


/-- Inversion of a successful `parse`: the record is built from the
regex captures exactly as in the source. -/
theorem parse_some_inversion {p : String} {info : AnimeFileInfo}
    (h : FilenameParser.parse p = some info) :
    ∃ (name : List Char) (caps : RegexCaps),
      fileNameOfChars p.data = some name ∧ animeFileRegexCaptures name = some caps ∧
      info = { publisher := String.mk (rustTrim caps.publisher)
               anime_name := String.mk (rustTrim caps.anime)
               episode := String.mk (pad2 caps.episode)
               tags := String.mk (rustTrim caps.tags)
               extension := String.mk (lowerStr caps.ext)
               original_path := p } := by
  unfold FilenameParser.parse at h
  split at h
  · cases h
  case _ name heq =>
    unfold parseFilenameCore at h
    split at h
    · cases h
    case _ caps heq2 =>
      injection h with h
      exact ⟨name, caps, heq, heq2, h.symm⟩

/-- Facts about the zero-padding `format!("{:0>2}", ·)`. -/
theorem pad2_facts (l : List Char) (h1 : l ≠ []) (h2 : l.all isDigitChar) :
    2 ≤ (pad2 l).length ∧ (pad2 l).all isDigitChar ∧
    (l.length < 2 → pad2 l = '0' :: l) ∧ (2 ≤ l.length → pad2 l = l) := by
  unfold pad2
  by_cases hl : 2 ≤ l.length
  · rw [if_pos hl]
    exact ⟨hl, h2, fun hcon => absurd hl (by omega), fun _ => rfl⟩
  · rw [if_neg hl]
    have hlen : l.length = 1 := by
      rcases l with _ | ⟨c, t⟩
      · exact absurd rfl h1
      · simp only [List.length_cons] at hl ⊢
        omega
    constructor
    · simp [hlen]
    constructor
    · rw [List.all_append, h2]
      simp only [Bool.and_true]
      apply List.all_eq_true.mpr
      intro x hx
      rw [List.eq_of_mem_replicate hx]
      decide
    constructor
    · intro hcon
      rw [hlen]
      rfl
    · intro hcon
      omega


/-- C6: every record produced by `parse` has an episode of length at
least 2 consisting only of decimal digits; it is the captured digit
run left-padded with one `0` when that run was a single digit, and
the captured run unchanged when it had 2 or more digits — never
truncated and never double-padded. -/
theorem episode_number_invariant :
    ∀ (p : String) (info : AnimeFileInfo), FilenameParser.parse p = some info →
      2 ≤ info.episode.length ∧ info.episode.data.all isDigitChar ∧
      ∃ (name : List Char) (caps : RegexCaps),
        fileNameOfChars p.data = some name ∧
        animeFileRegexCaptures name = some caps ∧
        caps.episode ≠ [] ∧ caps.episode.all isDigitChar ∧
        info.episode = String.mk (pad2 caps.episode) ∧
        (caps.episode.length < 2 → info.episode = String.mk ('0' :: caps.episode)) ∧
        (2 ≤ caps.episode.length → info.episode = String.mk caps.episode) := by
  intro p info h
  obtain ⟨name, caps, h1, h2, h3⟩ := parse_some_inversion h
  obtain ⟨wsA, u, w0, w1, w2, inner, e, heqd, hp1, hp2, hq1, hq2, ha1, ha2, ha3,
    hb1, hb2, hc1, hc2, hepne, hepall, hd1, hd2, he1, he2, he3, he4, hf1, hf2⟩ :=
    animeFileRegexCaptures_shape h2
  obtain ⟨hP1, hP2, hP3, hP4⟩ := pad2_facts caps.episode hepne hepall
  subst h3
  refine ⟨hP1, hP2, name, caps, h1, h2, hepne, hepall, rfl, ?_, ?_⟩
  · intro hlen
    show String.mk (pad2 caps.episode) = String.mk ('0' :: caps.episode)
    rw [hP3 hlen]
  · intro hlen
    show String.mk (pad2 caps.episode) = String.mk caps.episode
    rw [hP4 hlen]

/-- C5: every successful `parse` exhibits all the grammar elements
(leading bracket group, separator with surrounding whitespace,
non-empty digit run, non-empty bracketed tag block, non-empty word
extension) in an explicit decomposition of the base name, so a base
name missing any element yields `none`; in particular the base names
`测试 - 01.mp4`, `[ANi] 测试.mp4`, the empty string and
`random_file.txt` all yield `none`, and no error is raised (totality
is immediate since `parse` is a total function into `Option`). -/
theorem parse_rejects_malformed :
    (∀ (p : String) (info : AnimeFileInfo), FilenameParser.parse p = some info →
      ∃ (name : List Char) (caps : RegexCaps) (wsA u w0 w1 w2 inner e : List Char),
        fileNameOfChars p.data = some name ∧
        animeFileRegexCaptures name = some caps ∧
        name = '[' :: (caps.publisher ++ ']' :: (wsA ++ (u ++ (w0 ++ '-' ::
          (w1 ++ (caps.episode ++ (w2 ++ '[' :: (inner ++ ']' :: '.' :: e)))))))) ∧
        caps.publisher ≠ [] ∧ wsA ≠ [] ∧ wsA.all isWsChar ∧ u ≠ [] ∧
        w0 ≠ [] ∧ w0.all isWsChar ∧ w1 ≠ [] ∧ w1.all isWsChar ∧
        caps.episode ≠ [] ∧ caps.episode.all isDigitChar ∧
        w2 ≠ [] ∧ w2.all isWsChar ∧ inner ≠ [] ∧ e ≠ [] ∧ e.all isWordChar) ∧
    FilenameParser.parse "测试 - 01.mp4" = none ∧
    FilenameParser.parse "[ANi] 测试.mp4" = none ∧
    FilenameParser.parse "" = none ∧
    FilenameParser.parse "random_file.txt" = none := by
  refine ⟨?_, by decide, by decide, by decide, by decide⟩
  intro p info h
  obtain ⟨name, caps, h1, h2, -⟩ := parse_some_inversion h
  obtain ⟨wsA, u, w0, w1, w2, inner, e, heqd, hp1, hp2, hq1, hq2, ha1, ha2, ha3,
    hb1, hb2, hc1, hc2, hepne, hepall, hd1, hd2, he1, he2, he3, he4, hf1, hf2⟩ :=
    animeFileRegexCaptures_shape h2
  exact ⟨name, caps, wsA, u, w0, w1, w2, inner, e, h1, h2, heqd, hp1, hq1, hq2,
    ha2, hb1, hb2, hc1, hc2, hepne, hepall, hd1, hd2, he1, he3, he4⟩

/-- C9: at the byte level, a path with no base-name component (for
example ending in `..` or a bare root) makes `parse` return `none`,
a base name that is not valid UTF-8 makes it return `none`, and
every success factors through a valid UTF-8 decoding of the base
name, to which alone the grammar is applied. -/
theorem parse_requires_utf8_basename :
    (∀ bs : List Nat, fileNameBytes bs = none → parseOsPath bs = none) ∧
    (∀ bs nb : List Nat, fileNameBytes bs = some nb → utf8Decode nb = none →
      parseOsPath bs = none) ∧
    (∀ (bs : List Nat) (info : AnimeFileInfo), parseOsPath bs = some info →
      ∃ (nb : List Nat) (cs : List Char), fileNameBytes bs = some nb ∧
        utf8Decode nb = some cs ∧
        parseFilenameCore cs (String.mk (utf8DecodeLossy bs)) = some info) := by
  refine ⟨?_, ?_, ?_⟩
  · intro bs h
    unfold parseOsPath
    rw [h]
  · intro bs nb h1 h2
    unfold parseOsPath
    rw [h1]
    show (match utf8Decode nb with
      | none => none
      | some name => parseFilenameCore name (String.mk (utf8DecodeLossy bs))) = none
    rw [h2]
  · intro bs info h
    unfold parseOsPath at h
    split at h
    · cases h
    case _ nb heq =>
      split at h
      · cases h
      case _ cs heq2 =>
        exact ⟨nb, cs, heq, heq2, h⟩

theorem parse_wellformed_template_witness :
    FilenameParser.parse "dl/[ANi] Test - 7 [1080P].mp4" = some
      { publisher := String.mk (rustTrim "ANi".data)
        anime_name := "Test"
        episode := String.mk (pad2 "7".data)
        tags := "[" ++ "1080P" ++ "]"
        extension := String.mk ('.' :: lowerStr "mp4".data)
        original_path := "dl/[ANi] Test - 7 [1080P].mp4" } :=
  parse_wellformed_template "dl/[ANi] Test - 7 [1080P].mp4" "[ANi] Test - 7 [1080P].mp4"
    "ANi" "Test" "7" "1080P" "mp4"
    (by decide) (by decide) (by decide) (by decide)
    (by intro c hc; injection hc with hc; subst hc; decide)
    (by intro c hc; injection hc with hc; subst hc; decide)
    (by decide) (by decide) (by decide) (by decide) (by decide) (by decide)
    rfl rfl

theorem episode_number_invariant_witness :
    2 ≤ sampleParsedB.episode.length ∧
    sampleParsedB.episode.data.all isDigitChar ∧
    ∃ (name : List Char) (caps : RegexCaps),
      fileNameOfChars ("[A] B - 1 [C].mp4" : String).data = some name ∧
      animeFileRegexCaptures name = some caps ∧
      caps.episode ≠ [] ∧ caps.episode.all isDigitChar ∧
      sampleParsedB.episode = String.mk (pad2 caps.episode) ∧
      (caps.episode.length < 2 → sampleParsedB.episode = String.mk ('0' :: caps.episode)) ∧
      (2 ≤ caps.episode.length → sampleParsedB.episode = String.mk caps.episode) :=
  episode_number_invariant "[A] B - 1 [C].mp4" sampleParsedB (by decide)

theorem parse_rejects_malformed_witness :
    ∃ (name : List Char) (caps : RegexCaps) (wsA u w0 w1 w2 inner e : List Char),
      fileNameOfChars ("[A] B - 12 [C].mp4" : String).data = some name ∧
      animeFileRegexCaptures name = some caps ∧
      name = '[' :: (caps.publisher ++ ']' :: (wsA ++ (u ++ (w0 ++ '-' ::
        (w1 ++ (caps.episode ++ (w2 ++ '[' :: (inner ++ ']' :: '.' :: e)))))))) ∧
      caps.publisher ≠ [] ∧ wsA ≠ [] ∧ wsA.all isWsChar ∧ u ≠ [] ∧
      w0 ≠ [] ∧ w0.all isWsChar ∧ w1 ≠ [] ∧ w1.all isWsChar ∧
      caps.episode ≠ [] ∧ caps.episode.all isDigitChar ∧
      w2 ≠ [] ∧ w2.all isWsChar ∧ inner ≠ [] ∧ e ≠ [] ∧ e.all isWordChar :=
  parse_rejects_malformed.1 "[A] B - 12 [C].mp4" sampleParsedB12 (by decide)

theorem parse_requires_utf8_basename_witness :
    parseOsPath [97, 47, 46, 46] = none ∧
    parseOsPath [91, 255, 93] = none ∧
    ∃ (nb : List Nat) (cs : List Char),
      fileNameBytes [91, 65, 93, 32, 66, 32, 45, 32, 49, 32, 91, 67, 93, 46, 109, 112, 52] =
        some nb ∧
      utf8Decode nb = some cs ∧
      parseFilenameCore cs (String.mk (utf8DecodeLossy
        [91, 65, 93, 32, 66, 32, 45, 32, 49, 32, 91, 67, 93, 46, 109, 112, 52])) =
        some sampleParsedB :=
  ⟨parse_requires_utf8_basename.1 [97, 47, 46, 46] (by decide),
   parse_requires_utf8_basename.2.1 [91, 255, 93] [91, 255, 93] (by decide) (by decide),
   parse_requires_utf8_basename.2.2
     [91, 65, 93, 32, 66, 32, 45, 32, 49, 32, 91, 67, 93, 46, 109, 112, 52]
     sampleParsedB (by decide)⟩

end AnimeOrganizer
